import Mathlib

/-!
# mtab: reading mount table entries

A shallow embedding of `mtab.go` (package `github.com/artyom/mtab`).

`Entries` opens a file and repeatedly calls `fmt.Fscanf` with the format
`%s %s %s %s %d %d`, unescaping the four text fields of every record with a
`strings.Replacer`.  What `Entries` returns is decided by the Go standard
library routines it calls, so those are embedded too, function by function
(`doScanf`, `advance`, `SkipSpace`, `token`, `convertString`, `scanInt`,
`scanNumber`, `accept`, `notEOF`, `strconv.ParseInt`, the generic
`strings.Replacer`), following the semantics of Go 1.6 and later.

Conventions of the embedding:

* a file content is valid UTF-8 text, given as its sequence of code points
  (`List Char`); Go strings are `String`;
* a Go `error` is a value of `Error`, the nil error is `none`;
* a panic raised by `s.error`/`s.errorString` and recovered by `errorHandler`
  is the `Except.error` branch;
* a `[]Entry` is a `List Entry`, the nil slice is `[]`;
* the Go `int` is 64 bits wide (`intBits`), as on every 64-bit Linux;
* the per-call rune budget of the scanner (`hugeWid = 1 << 30` runes) is taken
  not to be reached, and reading the file never fails with an I/O error.
-/

namespace Mtab

/-! ## Data model -/

/-- Entry corresponds to the mntent struct (`Type` is spelled `Type_`). -/
structure Entry where
  Fsname : String
  Dir : String
  Type_ : String
  Opts : String
  Freq : Int
  Passno : Int
  deriving DecidableEq, Repr

/-- Go error values that `Entries` can return. -/
inductive Error where
  /-- The value `io.EOF`. -/
  | EOF
  /-- An `errors.New(msg)` raised by the scanner through `s.errorString`. -/
  | scanError (msg : String)
  /-- A `*strconv.NumError` with its `Func`, `Num` and `Err` fields. -/
  | NumError (Func Num Err : String)
  /-- The result of `fmt.Errorf(msg)`. -/
  | Errorf (msg : String)
  /-- A `*os.PathError`, the error of a failed `os.Open`. -/
  | PathError (Op Path Err : String)
  deriving DecidableEq, Repr

/-! ## strings.Replacer -/

/-- The old/new pairs of `escaped = strings.NewReplacer(...)`, in argument order. -/
def escaped : List (List Char × List Char) :=
  [ (['\\', '0', '4', '0'], [' ']),
    (['\\', '0', '1', '1'], ['\t']),
    (['\\', '0', '1', '2'], ['\n']),
    (['\\', '1', '3', '4'], ['\\']) ]

/-- Whether `old` starts the text `s` (`strings.HasPrefix(s, old)`). -/
def hasPrefix : List Char → List Char → Bool
  | _, [] => true
  | [], _ :: _ => false
  | c :: s, o :: old => c == o && hasPrefix s old

/-- The lookup of the generic replacer: the first pair, in argument order, whose
old string starts the remaining text; it yields the new string and the length of
the old one. -/
def lookup : List (List Char × List Char) → List Char → Option (List Char × Nat)
  | [], _ => none
  | (old, new) :: rest, s =>
    if hasPrefix s old then some (new, old.length) else lookup rest s

/-- The loop of `genericReplacer.WriteString` for non-empty old strings: at each
position either a pair matches, its new string is written and the position moves
past the old string (`skip` counts the characters of the match still to pass), or
the character is copied. -/
def replaceFrom (table : List (List Char × List Char)) : Nat → List Char → List Char
  | _, [] => []
  | skip + 1, _ :: s => replaceFrom table skip s
  | 0, c :: s =>
    match lookup table (c :: s) with
    | some (new, keylen) => new ++ replaceFrom table (keylen - 1) s
    | none => c :: replaceFrom table 0 s

/-- The method `escaped.Replace`. -/
def Replace (s : String) : String :=
  String.mk (replaceFrom escaped 0 s.data)

/-- unescapeFields unescapes characters on string fields. -/
def unescapeFields (m : Entry) : Entry :=
  { m with
    Fsname := Replace m.Fsname
    Dir := Replace m.Dir
    Type_ := Replace m.Type_
    Opts := Replace m.Opts }

/-! ## fmt: the scanner -/

/-- The table `space` of fmt/scan.go: the ranges of space code points. -/
def space : List (Nat × Nat) :=
  [ (0x0009, 0x000d), (0x0020, 0x0020), (0x0085, 0x0085), (0x00a0, 0x00a0),
    (0x1680, 0x1680), (0x2000, 0x200a), (0x2028, 0x2029), (0x202f, 0x202f),
    (0x205f, 0x205f), (0x3000, 0x3000) ]

/-- The loop of `isSpace` over the ranges. -/
def isSpaceIn : List (Nat × Nat) → Nat → Bool
  | [], _ => false
  | rng :: rest, rx =>
    if rx < rng.1 then false else if rx ≤ rng.2 then true else isSpaceIn rest rx

/-- The function `isSpace` of fmt/scan.go. -/
def isSpace (r : Char) : Bool :=
  if r.toNat ≥ 2 ^ 16 then false else isSpaceIn space r.toNat

/-- The function `notSpace` of fmt/scan.go. -/
def notSpace (r : Char) : Bool := !isSpace r

/-- The scan state `ss` over a reader that has no `UnreadRune` of its own (an
`*os.File`), which fmt wraps in a `readRune`.  `input` holds the runes the next
`ReadRune` calls deliver; `pending` says that the first of them was already taken
from the file and sits in `readRune.peekRune`. -/
structure ss where
  input : List Char
  pending : Bool
  deriving DecidableEq, Repr

/-- The state made by `newScanState` for a file whose unread content is `f`. -/
def newScanState (f : List Char) : ss := { input := f, pending := false }

/-- What is left in the file once the scan state is freed: a pending rune was
read from the file and is lost with the `readRune`. -/
def ss.free (s : ss) : List Char :=
  if s.pending then s.input.tail else s.input

/-- The method `getRune`: the next rune, or `none` for `eof`. -/
def ss.getRune (s : ss) : Option Char × ss :=
  match s.input with
  | [] => (none, s)
  | r :: rest => (some r, { input := rest, pending := false })

/-- The method `UnreadRune`, called right after `r` was read. -/
def ss.UnreadRune (s : ss) (r : Char) : ss :=
  { input := r :: s.input, pending := true }

/-- The method `peek` as used on the runes that follow: whether the next rune is
one of `ok`. -/
def peek (ok : List Char) : List Char → Bool
  | [] => false
  | r :: _ => ok.contains r

/-- The loop of `SkipSpace` with `nlIsSpace = false`, over the runes to come. -/
def skipSpaceRunes : List Char → Except Error ss
  | [] => .ok { input := [], pending := false }
  | r :: rest =>
    if r = '\r' ∧ peek ['\n'] rest then skipSpaceRunes rest
    else if r = '\n' then .error (.scanError "unexpected newline")
    else if !isSpace r then .ok (ss.UnreadRune { input := rest, pending := false } r)
    else skipSpaceRunes rest

/-- The method `SkipSpace`. -/
def ss.SkipSpace (s : ss) : Except Error ss := skipSpaceRunes s.input

/-- The method `notEOF`: panics with `io.EOF` when no rune is left, else reads
one rune and gives it back. -/
def ss.notEOF (s : ss) : Except Error ss :=
  match s.getRune with
  | (none, _) => .error .EOF
  | (some r, s1) => .ok (s1.UnreadRune r)

/-- The loop of `token`: runes are written to the buffer while `f` holds; the
first rune that fails `f` is given back. -/
def tokenRunes (f : Char → Bool) : List Char → List Char × ss
  | [] => ([], { input := [], pending := false })
  | r :: rest =>
    if !f r then ([], ss.UnreadRune { input := rest, pending := false } r)
    else (r :: (tokenRunes f rest).1, (tokenRunes f rest).2)

/-- The method `token(skipSpace, f)` with `skipSpace = true`. -/
def ss.token (s : ss) (f : Char → Bool) : Except Error (List Char × ss) :=
  match s.SkipSpace with
  | .error e => .error e
  | .ok s1 => .ok (tokenRunes f s1.input)

/-- The method `convertString` for the verb `%s`. -/
def ss.convertString (s : ss) : Except Error (String × ss) :=
  match s.SkipSpace with
  | .error e => .error e
  | .ok s1 =>
    match s1.notEOF with
    | .error e => .error e
    | .ok s2 =>
      match s2.token notSpace with
      | .error e => .error e
      | .ok (buf, s3) => .ok (String.mk buf, s3)

/-- The constants `sign` and `decimalDigits`. -/
def sign : List Char := ['+', '-']

/-- The constant `decimalDigits`. -/
def decimalDigits : List Char := ['0', '1', '2', '3', '4', '5', '6', '7', '8', '9']

/-- The method `accept(ok)`, that is `consume(ok, true)`: a rune of `ok` is
appended to the buffer, any other rune is given back. -/
def ss.accept (s : ss) (ok : List Char) (buf : List Char) : Bool × List Char × ss :=
  match s.getRune with
  | (none, s1) => (false, buf, s1)
  | (some r, s1) =>
    if ok.contains r then (true, buf ++ [r], s1) else (false, buf, s1.UnreadRune r)

/-- The loop `for s.accept(digits) {}` of `scanNumber`. -/
def acceptRunes (ok : List Char) : List Char → List Char × ss
  | [] => ([], { input := [], pending := false })
  | r :: rest =>
    if ok.contains r then (r :: (acceptRunes ok rest).1, (acceptRunes ok rest).2)
    else ([], ss.UnreadRune { input := rest, pending := false } r)

/-- The method `scanNumber(digits, haveDigits)` with `haveDigits = false`. -/
def ss.scanNumber (s : ss) (digits : List Char) (buf : List Char) :
    Except Error (List Char × ss) :=
  match s.notEOF with
  | .error e => .error e
  | .ok s1 =>
    match s1.accept digits buf with
    | (false, _, _) => .error (.scanError "expected integer")
    | (true, buf1, s2) =>
      .ok (buf1 ++ (acceptRunes digits s2.input).1, (acceptRunes digits s2.input).2)

/-! ## strconv.ParseInt -/

/-- The largest `uint64`. -/
def maxUint64 : Nat := 2 ^ 64 - 1

/-- The loop of `strconv.ParseUint(s, 10, 64)`; `s0` is the whole argument. -/
def parseUintLoop (s0 : List Char) : List Char → Nat → Except Error Nat
  | [], n => .ok n
  | c :: cs, n =>
    if ¬ ('0' ≤ c ∧ c ≤ '9') then
      .error (.NumError "ParseUint" (String.mk s0) "invalid syntax")
    else if n ≥ maxUint64 / 10 + 1 then
      .error (.NumError "ParseUint" (String.mk s0) "value out of range")
    else if n * 10 + (c.toNat - '0'.toNat) > maxUint64 then
      .error (.NumError "ParseUint" (String.mk s0) "value out of range")
    else parseUintLoop s0 cs (n * 10 + (c.toNat - '0'.toNat))

/-- The function `strconv.ParseUint(s, 10, 64)`. -/
def ParseUint (s : List Char) : Except Error Nat :=
  if s = [] then .error (.NumError "ParseUint" (String.mk s) "invalid syntax")
  else parseUintLoop s s 0

/-- The function `strconv.ParseInt(s, 10, 64)`.  A range error of `ParseUint`
comes with the value `maxUint64` and so fails the cutoff test. -/
def ParseInt (s0 : List Char) : Except Error Int :=
  match s0 with
  | [] => .error (.NumError "ParseInt" (String.mk s0) "invalid syntax")
  | c :: rest =>
    let neg : Bool := c = '-'
    let s : List Char := if c = '+' ∨ c = '-' then rest else s0
    match ParseUint s with
    | .error (.NumError _ _ "value out of range") =>
      .error (.NumError "ParseInt" (String.mk s0) "value out of range")
    | .error _ => .error (.NumError "ParseInt" (String.mk s0) "invalid syntax")
    | .ok un =>
      if !neg && un ≥ 2 ^ 63 then
        .error (.NumError "ParseInt" (String.mk s0) "value out of range")
      else if neg && un > 2 ^ 63 then
        .error (.NumError "ParseInt" (String.mk s0) "value out of range")
      else .ok (if neg then - (un : Int) else (un : Int))

/-- The constant `intBits`: the size of the Go `int`. -/
def intBits : Nat := 64

/-- The method `scanInt(verb, bitSize)` for the verb `%d`. -/
def ss.scanInt (s : ss) (bitSize : Nat) : Except Error (Int × ss) :=
  match s.SkipSpace with
  | .error e => .error e
  | .ok s1 =>
    match s1.notEOF with
    | .error e => .error e
    | .ok s2 =>
      match s2.accept sign [] with
      | (_, buf, s3) =>
        match s3.scanNumber decimalDigits buf with
        | .error e => .error e
        | .ok (tok, s4) =>
          match ParseInt tok with
          | .error e => .error e
          | .ok i =>
            if i < - 2 ^ (bitSize - 1) ∨ 2 ^ (bitSize - 1) ≤ i then
              .error (.scanError ("integer overflow on token " ++ String.mk tok))
            else .ok (i, s4)

/-- The loop of `advance` that passes spaces other than newline; `inputc` is the
rune read last. -/
def advanceRunes : List Char → ss
  | [] => { input := [], pending := false }
  | inputc :: rest =>
    if isSpace inputc ∧ inputc ≠ '\n' then advanceRunes rest
    else ss.UnreadRune { input := rest, pending := false } inputc

/-- The method `advance` on a space of the format that does not follow a newline
(`trailingSpace` with `newlines == 0`): the input must hold a space other than
newline, or be at its end. -/
def ss.advance (s : ss) : Except Error ss :=
  match s.getRune with
  | (none, s1) => .ok s1
  | (some inputc, s1) =>
    if !isSpace inputc then .error (.scanError "expected space in input to match format")
    else if inputc = '\n' then .error (.scanError "newline in input does not match format")
    else .ok (advanceRunes s1.input)

/-- An element of a format: a run of spaces, or a verb. -/
inductive Directive where
  | space
  | verb (c : Char)
  deriving DecidableEq, Repr

/-- The constant `mtabFmt`, the format `%s %s %s %s %d %d`. -/
def mtabFmt : List Directive :=
  [.verb 's', .space, .verb 's', .space, .verb 's', .space, .verb 's', .space,
   .verb 'd', .space, .verb 'd']

/-- An operand of `Fscanf`: a pointer to a string or to an int field of the entry,
given by the assignment through it. -/
inductive Arg where
  | string (set : Entry → String → Entry)
  | int (set : Entry → Int → Entry)

/-- The method `scanOne(verb, arg)` for `*string` and `*int` operands.  Of the
verbs, `%s` for a string and `%d` for an int are embedded, the two of `mtabFmt`;
every other verb counts as a bad verb. -/
def ss.scanOne (s : ss) (verb : Char) (arg : Arg) (e : Entry) : Except Error (Entry × ss) :=
  match arg with
  | .string set =>
    if verb ≠ 's' then
      .error (.scanError ("bad verb '%" ++ String.singleton verb ++ "' for string"))
    else
      match s.convertString with
      | .error err => .error err
      | .ok (v, s1) => .ok (set e v, s1)
  | .int set =>
    if verb ≠ 'd' then
      .error (.scanError ("bad verb '%" ++ String.singleton verb ++ "' for integer"))
    else
      match s.scanInt intBits with
      | .error err => .error err
      | .ok (v, s1) => .ok (set e v, s1)

/-- The method `doScanf(format, a)`: the number of operands processed, the error,
the entry as assigned so far and the scan state.  With a nil error the state is
the one the scan ends in; with an error it is the state the failing directive
started from, not the one the panic left, and says nothing about the file:
`Entries` returns on an error and never reads the file again. -/
def doScanf : List Directive → List Arg → Nat → Entry → ss → Nat × Option Error × Entry × ss
  | [], a, numProcessed, e, s =>
    if !a.isEmpty then (numProcessed, some (.scanError "too many operands"), e, s)
    else (numProcessed, none, e, s)
  | .space :: format, a, numProcessed, e, s =>
    match s.advance with
    | .error err => (numProcessed, some err, e, s)
    | .ok s1 => doScanf format a numProcessed e s1
  | .verb c :: format, a, numProcessed, e, s =>
    match s.SkipSpace with
    | .error err => (numProcessed, some err, e, s)
    | .ok s1 =>
      match a with
      | [] => (numProcessed, some (.scanError "too few operands for format"), e, s1)
      | arg :: rest =>
        match s1.scanOne c arg e with
        | .error err => (numProcessed, some err, e, s1)
        | .ok (e1, s2) => doScanf format rest (numProcessed + 1) e1 s2

/-- The function `fmt.Fscanf(f, mtabFmt, a...)` on a file whose unread content is
`f`: the count, the error, the entry behind the operands, and the content the
file has left after the call. -/
def Fscanf (f : List Char) (format : List Directive) (a : List Arg) (e : Entry) :
    Nat × Option Error × Entry × List Char :=
  match doScanf format a 0 e (newScanState f) with
  | (n, err, e1, s) => (n, err, e1, s.free)

/-! ## Entries -/

/-- The operands `&e.Fsname, &e.Dir, &e.Type, &e.Opts, &e.Freq, &e.Passno`. -/
def operands : List Arg :=
  [ .string (fun e v => { e with Fsname := v }),
    .string (fun e v => { e with Dir := v }),
    .string (fun e v => { e with Type_ := v }),
    .string (fun e v => { e with Opts := v }),
    .int (fun e v => { e with Freq := v }),
    .int (fun e v => { e with Passno := v }) ]

/-- The zero value `Entry{}`. -/
def Entry.zero : Entry :=
  { Fsname := "", Dir := "", Type_ := "", Opts := "", Freq := 0, Passno := 0 }

/-- The loop `READLOOP` of `Entries` over the unread content `f` of the file,
with `out` the entries so far.  Each turn that goes on has read at least one
character (`Fscanf_nil_error`), so `fuel` above the length of `f` is never used
up and the result does not depend on it (`READLOOP_fuel`). -/
def READLOOP : Nat → List Char → List Entry → List Entry × Option Error
  | 0, _, out => (out, none)
  | fuel + 1, f, out =>
    match Fscanf f mtabFmt operands Entry.zero with
    | (_, some .EOF, _, _) => (out, none)
    | (_, some err, _, _) => (out, some err)
    | (n, none, e, f1) =>
      if n ≠ 6 then
        (out, some (.Errorf "wrong line format (invalid number of fields)"))
      else READLOOP fuel f1 (out ++ [unescapeFields e])

/-- Entries reads mtab entries from a given file.  `open_` is `os.Open`: the
content of the named file, or the error of opening it. -/
def Entries (open_ : String → Except Error String) (fname : String) :
    List Entry × Option Error :=
  match open_ fname with
  | .error err => ([], some err)
  | .ok f => READLOOP (f.data.length + 1) f.data []

/-- The loop `READLOOP` together with the number of calls of `fmt.Fscanf` it makes:
every turn of the loop makes one call, whatever the call reports. -/
def READLOOP.run : Nat → List Char → List Entry → (List Entry × Option Error) × Nat
  | 0, _, out => ((out, none), 0)
  | fuel + 1, f, out =>
    match Fscanf f mtabFmt operands Entry.zero with
    | (_, some .EOF, _, _) => ((out, none), 1)
    | (_, some err, _, _) => ((out, some err), 1)
    | (n, none, e, f1) =>
      if n ≠ 6 then
        ((out, some (.Errorf "wrong line format (invalid number of fields)")), 1)
      else
        ((READLOOP.run fuel f1 (out ++ [unescapeFields e])).1,
          (READLOOP.run fuel f1 (out ++ [unescapeFields e])).2 + 1)

/-- The function `Entries` together with the number of scans (calls of
`fmt.Fscanf` on the file) it performs: none when `os.Open` fails, because the
function returns before the loop. -/
def Entries.run (open_ : String → Except Error String) (fname : String) :
    (List Entry × Option Error) × Nat :=
  match open_ fname with
  | .error err => (([], some err), 0)
  | .ok f => READLOOP.run (f.data.length + 1) f.data []

/-! ## Notions of the specification, and what the proofs track -/

/-- A text that is empty or starts with a backslash. -/
def startsEscape : List Char → Bool
  | [] => true
  | c :: _ => c == '\\'

/-- The four escape sequences, the old strings of `escaped`. -/
def escapeSequences : List (List Char) := escaped.map Prod.fst

/-- A text with no occurrence of any of the four escape sequences. -/
abbrev escapeFree (s : List Char) : Prop := ∀ q ∈ escapeSequences, ¬ q <:+: s

/-- A whitespace other than the newline. -/
def isBlank (c : Char) : Bool := isSpace c && c != '\n'

/-- A text token: not empty, free of whitespace. -/
def isToken (t : List Char) : Bool := !t.isEmpty && t.all (fun c => !isSpace c)

/-- A decimal digit. -/
def isDigit (c : Char) : Bool := '0' ≤ c && c ≤ '9'

/-- A non-empty run of decimal digits. -/
def isDigits (d : List Char) : Bool := !d.isEmpty && d.all isDigit

/-- The number a run of decimal digits stands for. -/
def digitsValue (d : List Char) : Nat :=
  d.foldl (fun n c => n * 10 + (c.toNat - '0'.toNat)) 0

/-- A base-10 integer token: an optional sign and a non-empty run of digits. -/
def isIntToken : List Char → Bool
  | '+' :: d => isDigits d
  | '-' :: d => isDigits d
  | d => isDigits d

/-- The integer a base-10 integer token stands for. -/
def intValue : List Char → Int
  | '+' :: d => (digitsValue d : Int)
  | '-' :: d => - (digitsValue d : Int)
  | d => (digitsValue d : Int)

/-- The range of the Go `int`. -/
abbrev inIntRange (i : Int) : Prop := - 2 ^ 63 ≤ i ∧ i < 2 ^ 63

/-- The six tokens of a record, as they stand in the file. -/
structure Record where
  fsname : List Char
  dir : List Char
  type_ : List Char
  opts : List Char
  freq : List Char
  passno : List Char
  deriving DecidableEq, Repr

/-- A well-formed record: four text tokens and two base-10 integer tokens in the
range of the Go `int`. -/
abbrev Record.wellFormed (r : Record) : Prop :=
  isToken r.fsname = true ∧ isToken r.dir = true ∧ isToken r.type_ = true ∧
  isToken r.opts = true ∧
  isIntToken r.freq = true ∧ inIntRange (intValue r.freq) ∧
  isIntToken r.passno = true ∧ inIntRange (intValue r.passno)

/-- The entry a record stands for: the text tokens unescaped, the integer tokens
by their values. -/
def Record.entry (r : Record) : Entry :=
  { Fsname := Replace (String.mk r.fsname)
    Dir := Replace (String.mk r.dir)
    Type_ := Replace (String.mk r.type_)
    Opts := Replace (String.mk r.opts)
    Freq := intValue r.freq
    Passno := intValue r.passno }

/-- The six tokens of a record laid out with the separators `seps` between them
(`seps` has five entries). -/
def Record.layout (r : Record) (s1 s2 s3 s4 s5 : List Char) : List Char :=
  r.fsname ++ s1 ++ r.dir ++ s2 ++ r.type_ ++ s3 ++ r.opts ++ s4 ++ r.freq ++ s5 ++ r.passno

/-- A record as one line of the file: single spaces between the fields and a
newline at the end. -/
def Record.line (r : Record) : List Char :=
  r.layout [' '] [' '] [' '] [' '] [' '] ++ ['\n']

/-- The scan state right after the scanner looked at the first rune of `rest`
and gave it back (or found the end of the input). -/
def ss.at (rest : List Char) : ss := { input := rest, pending := !rest.isEmpty }

/-- Whether a loop that passes the runes satisfying `f` stops in front of `rest`. -/
def stopsAt (f : Char → Bool) : List Char → Bool
  | [] => true
  | c :: _ => !f c

/-- A separator between two fields: a non-empty run of whitespace other than
newline. -/
def isSeparator (w : List Char) : Bool := !w.isEmpty && w.all isBlank

/-- The entry as `Fscanf` leaves it, before the text fields are unescaped. -/
def Record.scanned (r : Record) : Entry :=
  { Fsname := String.mk r.fsname
    Dir := String.mk r.dir
    Type_ := String.mk r.type_
    Opts := String.mk r.opts
    Freq := intValue r.freq
    Passno := intValue r.passno }

/-- The file made of the lines of the records `rs`, in order. -/
def linesOf : List Record → List Char
  | [] => []
  | r :: rs => r.line ++ linesOf rs

/-- The decimal representation of an integer, as `strconv.Itoa` writes it. -/
def decimal (i : Int) : List Char :=
  if i < 0 then '-' :: Nat.toDigits 10 i.natAbs else Nat.toDigits 10 i.natAbs

/-- A record as it is placed in a file: its five separators and the gap between
its last token and the first token of the next record. -/
structure Placed where
  record : Record
  s1 : List Char
  s2 : List Char
  s3 : List Char
  s4 : List Char
  s5 : List Char
  gap : List Char
  deriving DecidableEq, Repr

/-- The text of a placed record, without its gap. -/
def Placed.body (p : Placed) : List Char := p.record.layout p.s1 p.s2 p.s3 p.s4 p.s5

/-- A gap between two records: one whitespace character, which may be a newline,
followed by any run of whitespace other than newline. -/
def isGap : List Char → Bool
  | [] => false
  | c :: w => isSpace c && w.all isBlank

/-- A well-formed record placed with separators free of newlines and a gap that
holds at most one newline, at its start. -/
abbrev Placed.wellPlaced (p : Placed) : Prop :=
  p.record.wellFormed ∧ isSeparator p.s1 = true ∧ isSeparator p.s2 = true ∧
  isSeparator p.s3 = true ∧ isSeparator p.s4 = true ∧ isSeparator p.s5 = true ∧
  isGap p.gap = true

/-- The file made of the placed records: the gaps stand between consecutive
records, nothing stands before the first token or after the last. -/
def spread : List Placed → List Char
  | [] => []
  | [p] => p.body
  | p :: q :: ps => p.body ++ p.gap ++ spread (q :: ps)

/-- The base-10 integer a token starts with, as far as it goes: the sign, if any,
and the digits that follow it. -/
def leadingInt : List Char → List Char
  | '+' :: d => '+' :: d.takeWhile isDigit
  | '-' :: d => '-' :: d.takeWhile isDigit
  | d => d.takeWhile isDigit

/-- What is left of a token after the integer it starts with. -/
def afterInt : List Char → List Char
  | '+' :: d => d.dropWhile isDigit
  | '-' :: d => d.dropWhile isDigit
  | d => d.dropWhile isDigit

/-- A token that is a base-10 integer in the range of the Go `int`. -/
abbrev isGoInt (t : List Char) : Prop := isIntToken t = true ∧ inIntRange (intValue t)

/-- The errors the scanner raises on a token that is no integer. -/
def isIntegerScanError (err : Error) : Prop :=
  err = .scanError "expected integer" ∨
  err = .scanError "expected space in input to match format" ∨
  ∃ tok, err = .NumError "ParseInt" tok "value out of range"

/-- The escaping of one character: a space, a tab, a newline and a backslash are
written as their escape sequences, every other character stands for itself. -/
def escapeChar (c : Char) : List Char :=
  if c = ' ' then ['\\', '0', '4', '0']
  else if c = '\t' then ['\\', '0', '1', '1']
  else if c = '\n' then ['\\', '0', '1', '2']
  else if c = '\\' then ['\\', '1', '3', '4']
  else [c]

/-- The escaping of a text, character by character. -/
def escapeRunes : List Char → List Char
  | [] => []
  | c :: t => escapeChar c ++ escapeRunes t

/-- The escaping of a string: each space replaced with `\040`, each tab with
`\011`, each newline with `\012` and each backslash with `\134`. -/
def escape (t : String) : String := String.mk (escapeRunes t.data)

/-- One replace-all pass, as `strings.ReplaceAll(s, old, new)` makes it for a
non-empty `old`: from left to right, every occurrence of `old` that does not
overlap the one replaced before it is replaced with `new` (`skip` counts the
characters of the occurrence still to pass). -/
def replaceAllFrom (old new : List Char) : Nat → List Char → List Char
  | _, [] => []
  | skip + 1, _ :: s => replaceAllFrom old new skip s
  | 0, c :: s =>
    if hasPrefix (c :: s) old then new ++ replaceAllFrom old new (old.length - 1) s
    else c :: replaceAllFrom old new 0 s

/-- One replace-all pass over a text. -/
def replaceAll (old new s : List Char) : List Char := replaceAllFrom old new 0 s

/-- Four successive replace-all passes in the order of the table: first `\040` to
space, then `\011` to tab, then `\012` to newline, and last `\134` to backslash. -/
def sequentialRunes (s : List Char) : List Char :=
  replaceAll ['\\', '1', '3', '4'] ['\\']
    (replaceAll ['\\', '0', '1', '2'] ['\n']
      (replaceAll ['\\', '0', '1', '1'] ['\t']
        (replaceAll ['\\', '0', '4', '0'] [' '] s)))

/-- The sequential unescaping of a string. -/
def unescapeSequential (s : String) : String := String.mk (sequentialRunes s.data)

/-- An error raised inside `fmt.Fscanf`: `io.EOF`, an error of the scanner, or an
error of `strconv`. -/
def Error.ofScanner : Error → Bool
  | .EOF => true
  | .scanError _ => true
  | .NumError _ _ _ => true
  | .Errorf _ => false
  | .PathError _ _ _ => false

theorem hasPrefix_iff (s old : List Char) : hasPrefix s old = true ↔ old <+: s := by
  induction old generalizing s with
  | nil => simp [hasPrefix]
  | cons o old ih =>
    cases s with
    | nil => simp [hasPrefix]
    | cons c s =>
      simp only [hasPrefix, Bool.and_eq_true, beq_iff_eq, ih, List.cons_prefix_cons]
      constructor
      · rintro ⟨h1, h2⟩; exact ⟨h1.symm, h2⟩
      · rintro ⟨h1, h2⟩; exact ⟨h1.symm, h2⟩

theorem lookup_some (table : List (List Char × List Char)) (s new : List Char) (k : Nat)
    (h : lookup table s = some (new, k)) :
    ∃ old, (old, new) ∈ table ∧ k = old.length ∧ old <+: s := by
  induction table with
  | nil => simp [lookup] at h
  | cons p rest ih =>
    obtain ⟨old, nw⟩ := p
    simp only [lookup] at h
    split at h
    · rename_i hp
      simp only [Option.some.injEq, Prod.mk.injEq] at h
      exact ⟨old, by simp [h.1], h.2.symm, (hasPrefix_iff s old).1 hp⟩
    · obtain ⟨o, ho, hk, hpre⟩ := ih h
      exact ⟨o, List.mem_cons_of_mem _ ho, hk, hpre⟩

theorem lookup_none (table : List (List Char × List Char)) (s : List Char)
    (h : ∀ p ∈ table, ¬ p.1 <+: s) : lookup table s = none := by
  induction table with
  | nil => rfl
  | cons p rest ih =>
    obtain ⟨old, nw⟩ := p
    have h1 : hasPrefix s old = false := by
      have := h (old, nw) (by simp)
      rw [← hasPrefix_iff] at this
      simpa using this
    simp only [lookup, h1, Bool.false_eq_true, if_false]
    exact ih (fun p hp => h p (List.mem_cons_of_mem _ hp))


theorem lookup_congr (table : List (List Char × List Char)) (s t : List Char)
    (h : ∀ p ∈ table, hasPrefix s p.1 = hasPrefix t p.1) : lookup table s = lookup table t := by
  induction table with
  | nil => rfl
  | cons p rest ih =>
    obtain ⟨old, nw⟩ := p
    have h1 := h (old, nw) (by simp)
    simp only at h1
    simp only [lookup, h1]
    rw [ih (fun p hp => h p (List.mem_cons_of_mem _ hp))]


theorem hasPrefix_append_escaped (c : Char) (a r : List Char) (hr : startsEscape r = true)
    (p : List Char × List Char) (hp : p ∈ escaped) :
    hasPrefix (c :: a ++ r) p.1 = hasPrefix (c :: a) p.1 := by
  have hr2 : r = [] ∨ ∃ t, r = '\\' :: t := by
    cases r with
    | nil => exact Or.inl rfl
    | cons x t => right; simp [startsEscape] at hr; exact ⟨t, by rw [hr]⟩
  simp only [escaped, List.mem_cons, List.mem_singleton, List.not_mem_nil, or_false] at hp
  rcases hr2 with rfl | ⟨t, rfl⟩
  · simp
  · rcases a with _ | ⟨a1, _ | ⟨a2, _ | ⟨a3, a4⟩⟩⟩ <;> rcases hp with rfl | rfl | rfl | rfl <;>
      simp [hasPrefix]

theorem replaceFrom_zero_cons (table : List (List Char × List Char)) (c : Char) (s : List Char) :
    replaceFrom table 0 (c :: s) =
      match lookup table (c :: s) with
      | some (new, keylen) => new ++ replaceFrom table (keylen - 1) s
      | none => c :: replaceFrom table 0 s := rfl

theorem replaceFrom_append (a r : List Char) (hr : startsEscape r = true) (k : Nat) :
    replaceFrom escaped k (a ++ r) =
      replaceFrom escaped k a ++ replaceFrom escaped (k - a.length) r := by
  induction a generalizing k with
  | nil => simp [replaceFrom]
  | cons c a ih =>
    cases k with
    | succ k =>
      simp only [List.cons_append, replaceFrom, List.length_cons, Nat.add_sub_add_right]
      exact ih k
    | zero =>
      have hl : lookup escaped (c :: a ++ r) = lookup escaped (c :: a) :=
        lookup_congr escaped _ _ (fun p hp => hasPrefix_append_escaped c a r hr p hp)
      rw [List.cons_append, replaceFrom_zero_cons, replaceFrom_zero_cons, Nat.zero_sub]
      have hl2 : lookup escaped (c :: (a ++ r)) = lookup escaped (c :: a) := hl
      rw [hl2]
      cases hlk : lookup escaped (c :: a) with
      | none => simp only [List.cons_append, List.cons.injEq, true_and]; simpa using ih 0
      | some v =>
        obtain ⟨nw, keylen⟩ := v
        obtain ⟨old, _, hk, hpre⟩ := lookup_some _ _ _ _ hlk
        have hlen : keylen - 1 - a.length = 0 := by
          have := hpre.length_le
          simp only [List.length_cons] at this
          omega
        simp only [ih (keylen - 1), hlen, List.append_assoc]

theorem replaceFrom_escape (p : List Char × List Char) (hp : p ∈ escaped) (b : List Char) :
    replaceFrom escaped 0 (p.1 ++ b) = p.2 ++ replaceFrom escaped 0 b := by
  simp only [escaped, List.mem_cons, List.mem_singleton, List.not_mem_nil, or_false] at hp
  rcases hp with rfl | rfl | rfl | rfl <;> simp [replaceFrom, lookup, hasPrefix, escaped]

theorem startsEscape_escape (p : List Char × List Char) (hp : p ∈ escaped) (b : List Char) :
    startsEscape (p.1 ++ b) = true := by
  simp only [escaped, List.mem_cons, List.mem_singleton, List.not_mem_nil, or_false] at hp
  rcases hp with rfl | rfl | rfl | rfl <;> rfl

theorem replaceFrom_id (s : List Char) (h : ∀ p ∈ escaped, ¬ p.1 <:+: s) :
    replaceFrom escaped 0 s = s := by
  induction s with
  | nil => rfl
  | cons c s ih =>
    have hn : lookup escaped (c :: s) = none :=
      lookup_none _ _ (fun p hp hpre => h p hp hpre.isInfix)
    simp only [replaceFrom, hn]
    rw [ih (fun p hp hin => h p hp (hin.trans (List.suffix_cons c s).isInfix))]


theorem not_hasPrefix_of_lookup_none (table : List (List Char × List Char)) (s : List Char)
    (h : lookup table s = none) : ∀ p ∈ table, ¬ p.1 <+: s := by
  induction table with
  | nil => simp
  | cons p rest ih =>
    obtain ⟨old, nw⟩ := p
    simp only [lookup] at h
    split at h
    · cases h
    · rename_i hp
      intro q hq
      rcases List.mem_cons.1 hq with rfl | hq
      · rw [← hasPrefix_iff]; exact hp
      · exact ih h q hq

theorem lookup_escaped_new (s new : List Char) (k : Nat)
    (h : lookup escaped s = some (new, k)) :
    k = 4 ∧ ∃ s1, s = '\\' :: s1 ∧
      (new = [' '] ∨ new = ['\t'] ∨ new = ['\n'] ∨
        (new = ['\\'] ∧ ['\\', '1', '3', '4'] <+: s)) := by
  obtain ⟨old, hmem, hk, hpre⟩ := lookup_some _ _ _ _ h
  simp only [escaped, List.mem_cons, Prod.mk.injEq, List.mem_singleton, List.not_mem_nil,
    or_false] at hmem
  rcases hmem with ⟨rfl, rfl⟩ | ⟨rfl, rfl⟩ | ⟨rfl, rfl⟩ | ⟨rfl, rfl⟩ <;>
    obtain ⟨t, rfl⟩ := hpre <;> simp [hk]

theorem replaceFrom_head (t u : List Char) (d : Char)
    (hd : d ≠ ' ' ∧ d ≠ '\t' ∧ d ≠ '\n' ∧ d ≠ '\\')
    (h : replaceFrom escaped 0 t = d :: u) :
    ∃ t1, t = d :: t1 ∧ u = replaceFrom escaped 0 t1 := by
  cases t with
  | nil => simp [replaceFrom] at h
  | cons c t1 =>
    rw [replaceFrom_zero_cons] at h
    cases hl : lookup escaped (c :: t1) with
    | none =>
      rw [hl] at h
      simp only [List.cons.injEq] at h
      exact ⟨t1, by rw [h.1], h.2.symm⟩
    | some v =>
      obtain ⟨nw, k⟩ := v
      rw [hl] at h
      obtain ⟨_, _, _, hnew⟩ := lookup_escaped_new _ _ _ hl
      rcases hnew with rfl | rfl | rfl | ⟨rfl, _⟩ <;>
        simp only [List.singleton_append, List.cons.injEq] at h
      · exact absurd h.1.symm hd.1
      · exact absurd h.1.symm hd.2.1
      · exact absurd h.1.symm hd.2.2.1
      · exact absurd h.1.symm hd.2.2.2

theorem replaceFrom_escapeFree (t : List Char) (k : Nat)
    (h : ¬ ['\\', '1', '3', '4'] <:+: t) : escapeFree (replaceFrom escaped k t) := by
  induction t generalizing k with
  | nil => intro q hq; cases k <;> simp [replaceFrom, escapeSequences, escaped] at hq ⊢ <;>
      rcases hq with rfl | rfl | rfl | rfl <;> simp
  | cons c t ih =>
    have ht : ¬ ['\\', '1', '3', '4'] <:+: t :=
      fun hin => h (hin.trans (List.suffix_cons c t).isInfix)
    cases k with
    | succ k => simpa [replaceFrom] using ih k ht
    | zero =>
      rw [replaceFrom_zero_cons]
      cases hl : lookup escaped (c :: t) with
      | some v =>
        obtain ⟨nw, k⟩ := v
        obtain ⟨_, _, _, hnew⟩ := lookup_escaped_new _ _ _ hl
        have ih1 := ih (k - 1) ht
        intro q hq hin
        simp only [escapeSequences, escaped, List.map_cons, List.map_nil, List.mem_cons,
          List.mem_singleton, List.not_mem_nil, or_false] at hq
        rcases hnew with rfl | rfl | rfl | ⟨rfl, hpre⟩
        · simp only [List.singleton_append] at hin
          rcases List.infix_cons_iff.1 hin with hp | hi
          · rcases hq with rfl | rfl | rfl | rfl <;> simp at hp
          · exact ih1 q (by simp [escapeSequences, escaped, hq]) hi
        · simp only [List.singleton_append] at hin
          rcases List.infix_cons_iff.1 hin with hp | hi
          · rcases hq with rfl | rfl | rfl | rfl <;> simp at hp
          · exact ih1 q (by simp [escapeSequences, escaped, hq]) hi
        · simp only [List.singleton_append] at hin
          rcases List.infix_cons_iff.1 hin with hp | hi
          · rcases hq with rfl | rfl | rfl | rfl <;> simp at hp
          · exact ih1 q (by simp [escapeSequences, escaped, hq]) hi
        · exact h hpre.isInfix
      | none =>
        have ih1 := ih 0 ht
        intro q hq hin
        rcases List.infix_cons_iff.1 hin with hp | hi
        · have hq2 := hq
          simp only [escapeSequences, escaped, List.map_cons, List.map_nil, List.mem_cons,
            List.mem_singleton, List.not_mem_nil, or_false] at hq2
          have key : q <+: c :: t := by
            rcases hq2 with rfl | rfl | rfl | rfl <;>
            · obtain ⟨r, hr⟩ := hp
              simp only [List.cons_append, List.cons.injEq, List.nil_append] at hr
              obtain ⟨rfl, hr⟩ := hr
              obtain ⟨t1, rfl, hr1⟩ := replaceFrom_head t _ _ (by decide) hr.symm
              obtain ⟨t2, rfl, hr2⟩ := replaceFrom_head t1 _ _ (by decide) hr1.symm
              obtain ⟨t3, rfl, _⟩ := replaceFrom_head t2 _ _ (by decide) hr2.symm
              exact ⟨t3, rfl⟩
          have hne : lookup escaped (c :: t) ≠ none := by
            intro hnone
            obtain ⟨p, hp1, hp2⟩ := List.mem_map.1 hq
            exact not_hasPrefix_of_lookup_none _ _ hnone p hp1 (hp2 ▸ key)
          exact hne hl
        · exact ih1 q hq hi


/-! ## Facts about the scanner -/

theorem isSpace_of_isBlank {c : Char} (h : isBlank c = true) : isSpace c = true := by
  simp [isBlank] at h; exact h.1

theorem ne_newline_of_isBlank {c : Char} (h : isBlank c = true) : c ≠ '\n' := by
  simp [isBlank] at h; exact h.2

theorem ne_newline_of_not_isSpace {c : Char} (h : isSpace c = false) : c ≠ '\n' := by
  rintro rfl; revert h; decide

theorem ne_return_of_not_isSpace {c : Char} (h : isSpace c = false) : c ≠ '\r' := by
  rintro rfl; revert h; decide

theorem skipSpaceRunes_blank_append (w rest : List Char) (hw : ∀ c ∈ w, isBlank c = true) :
    skipSpaceRunes (w ++ rest) = skipSpaceRunes rest := by
  induction w with
  | nil => rfl
  | cons c w ih =>
    have hc := hw c (by simp)
    have ih1 := ih (fun x hx => hw x (List.mem_cons_of_mem _ hx))
    simp only [List.cons_append, skipSpaceRunes, ne_newline_of_isBlank hc, isSpace_of_isBlank hc,
      if_false, Bool.not_true, Bool.false_eq_true, List.append_eq, ih1, ite_self]

theorem skipSpaceRunes_cons (c : Char) (r : List Char) (hc : isSpace c = false) :
    skipSpaceRunes (c :: r) = .ok (ss.at (c :: r)) := by
  simp [skipSpaceRunes, ne_newline_of_not_isSpace hc, ne_return_of_not_isSpace hc, hc,
    ss.UnreadRune, ss.at]

theorem tokenRunes_append (f : Char → Bool) (t rest : List Char) (ht : ∀ c ∈ t, f c = true)
    (hrest : stopsAt f rest = true) : tokenRunes f (t ++ rest) = (t, ss.at rest) := by
  induction t with
  | nil =>
    cases rest with
    | nil => rfl
    | cons c r =>
      simp only [stopsAt, Bool.not_eq_true'] at hrest
      simp [tokenRunes, hrest, ss.UnreadRune, ss.at]
  | cons c t ih =>
    have hc := ht c (by simp)
    have ih1 := ih (fun x hx => ht x (List.mem_cons_of_mem _ hx))
    simp [tokenRunes, hc, ih1]

theorem acceptRunes_append (ok t rest : List Char) (ht : ∀ c ∈ t, ok.contains c = true)
    (hrest : stopsAt (fun c => ok.contains c) rest = true) :
    acceptRunes ok (t ++ rest) = (t, ss.at rest) := by
  induction t with
  | nil =>
    cases rest with
    | nil => rfl
    | cons c r =>
      simp only [stopsAt, Bool.not_eq_true'] at hrest
      simp only [List.nil_append, acceptRunes, hrest, Bool.false_eq_true, if_false,
        ss.UnreadRune, ss.at, List.isEmpty_cons, Bool.not_false]
  | cons c t ih =>
    have hc := ht c (by simp)
    have ih1 := ih (fun x hx => ht x (List.mem_cons_of_mem _ hx))
    simp only [List.cons_append, acceptRunes, hc, if_true, List.append_eq, ih1]

theorem isDigit_toNat (c : Char) : isDigit c = true ↔ 48 ≤ c.toNat ∧ c.toNat ≤ 57 := by
  simp only [isDigit, Bool.and_eq_true, decide_eq_true_eq]
  rw [Char.le_def, Char.le_def]
  simp only [UInt32.le_def, Char.toNat, UInt32.toNat]
  constructor
  · rintro ⟨h1, h2⟩; exact ⟨h1, h2⟩
  · rintro ⟨h1, h2⟩; exact ⟨h1, h2⟩

theorem contains_decimalDigits (c : Char) : decimalDigits.contains c = isDigit c := by
  by_cases h : isDigit c = true
  · rw [h]
    obtain ⟨h1, h2⟩ := (isDigit_toNat c).1 h
    have hc : c = Char.ofNat c.toNat := (Char.ofNat_toNat c).symm
    generalize c.toNat = n at h1 h2 hc
    subst hc
    interval_cases n <;> decide
  · simp only [Bool.not_eq_true] at h
    rw [h]
    have h3 : ¬ (48 ≤ c.toNat ∧ c.toNat ≤ 57) := by
      rw [← isDigit_toNat]; simp [h]
    simp only [decimalDigits, List.contains_eq_any_beq, List.any_cons, List.any_nil, Bool.or_false, Bool.or_eq_false_iff, beq_eq_false_iff_ne, ne_eq]
    refine ⟨?_, ?_, ?_, ?_, ?_, ?_, ?_, ?_, ?_, ?_⟩ <;> (rintro rfl; exact h3 (by decide))

theorem not_isSpace_of_isDigit {c : Char} (h : isDigit c = true) : isSpace c = false := by
  obtain ⟨h1, h2⟩ := (isDigit_toNat c).1 h
  simp only [isSpace]
  generalize c.toNat = n at h1 h2
  interval_cases n <;> decide

theorem not_sign_of_isDigit {c : Char} (h : isDigit c = true) : sign.contains c = false := by
  rw [← contains_decimalDigits] at h
  simp only [decimalDigits, List.contains_eq_any_beq, List.any_cons, List.any_nil, Bool.or_false,
    Bool.or_eq_true, beq_iff_eq] at h
  rcases h with h | h | h | h | h | h | h | h | h | h <;> subst h <;> decide

theorem le_foldl_digits (d : List Char) (n : Nat) :
    n ≤ d.foldl (fun n c => n * 10 + (c.toNat - '0'.toNat)) n := by
  induction d generalizing n with
  | nil => exact Nat.le_refl _
  | cons c d ih =>
    simp only [List.foldl_cons]
    exact Nat.le_trans (by omega) (ih _)

theorem parseUintLoop_digits (s0 d : List Char) (n : Nat) (hd : ∀ c ∈ d, isDigit c = true)
    (hn : n ≤ maxUint64) :
    parseUintLoop s0 d n =
      if d.foldl (fun n c => n * 10 + (c.toNat - '0'.toNat)) n ≤ maxUint64 then
        .ok (d.foldl (fun n c => n * 10 + (c.toNat - '0'.toNat)) n)
      else .error (.NumError "ParseUint" (String.mk s0) "value out of range") := by
  induction d generalizing n with
  | nil =>
    simp only [parseUintLoop, List.foldl_nil, hn, if_true]
  | cons c d ih =>
    have hc := hd c (by simp)
    have hc2 : '0' ≤ c ∧ c ≤ '9' := by simpa [isDigit] using hc
    have hle := le_foldl_digits d (n * 10 + (c.toNat - '0'.toNat))
    simp only [parseUintLoop, hc2, and_self, not_true_eq_false, if_false, List.foldl_cons]
    by_cases h1 : n ≥ maxUint64 / 10 + 1
    · have : ¬ (d.foldl (fun n c => n * 10 + (c.toNat - '0'.toNat)) (n * 10 + (c.toNat - '0'.toNat)) ≤ maxUint64) := by
        simp only [maxUint64] at h1 ⊢
        omega
      simp only [h1, if_true, this, if_false]
    · simp only [h1, if_false]
      by_cases h2 : n * 10 + (c.toNat - '0'.toNat) > maxUint64
      · have : ¬ (d.foldl (fun n c => n * 10 + (c.toNat - '0'.toNat)) (n * 10 + (c.toNat - '0'.toNat)) ≤ maxUint64) := by
          omega
        simp only [h2, if_true, this, if_false]
      · simp only [h2, if_false]
        exact ih (n * 10 + (c.toNat - '0'.toNat))
          (fun x hx => hd x (List.mem_cons_of_mem _ hx)) (by omega)

theorem ParseUint_digits (d : List Char) (hd : isDigits d = true) :
    ParseUint d =
      if digitsValue d ≤ maxUint64 then .ok (digitsValue d)
      else .error (.NumError "ParseUint" (String.mk d) "value out of range") := by
  simp only [isDigits, Bool.and_eq_true, Bool.not_eq_true', List.isEmpty_eq_false,
    List.all_eq_true] at hd
  simp only [ParseUint, hd.1, if_false, digitsValue]
  exact parseUintLoop_digits d d 0 hd.2 (by simp [maxUint64])

theorem isIntToken_cases (t : List Char) (h : isIntToken t = true) :
    (∃ d, t = '+' :: d ∧ isDigits d = true ∧ intValue t = (digitsValue d : Int)) ∨
    (∃ d, t = '-' :: d ∧ isDigits d = true ∧ intValue t = - (digitsValue d : Int)) ∨
    (isDigits t = true ∧ sign.contains (t.headD '0') = false ∧
      intValue t = (digitsValue t : Int)) := by
  cases t with
  | nil => simp [isIntToken, isDigits] at h
  | cons c d =>
    by_cases hp : c = '+'
    · subst hp; left; exact ⟨d, rfl, by simpa [isIntToken] using h, by simp [intValue]⟩
    · by_cases hm : c = '-'
      · subst hm; right; left; exact ⟨d, rfl, by simpa [isIntToken] using h, by simp [intValue]⟩
      · right; right
        have e1 : isIntToken (c :: d) = isDigits (c :: d) := by
          unfold isIntToken
          split
          · rename_i heq; exact absurd (List.cons.inj heq).1 hp
          · rename_i heq; exact absurd (List.cons.inj heq).1 hm
          · rfl
        have e2 : intValue (c :: d) = (digitsValue (c :: d) : Int) := by
          unfold intValue
          split
          · rename_i heq; exact absurd (List.cons.inj heq).1 hp
          · rename_i heq; exact absurd (List.cons.inj heq).1 hm
          · rfl
        refine ⟨e1 ▸ h, ?_, e2⟩
        simp [sign, hp, hm]

theorem ParseInt_token (t : List Char) (h : isIntToken t = true)
    (hr : inIntRange (intValue t)) : ParseInt t = .ok (intValue t) := by
  obtain ⟨h1, h2⟩ := hr
  rcases isIntToken_cases t h with ⟨d, rfl, hd, hv⟩ | ⟨d, rfl, hd, hv⟩ | ⟨hd, hs, hv⟩
  · rw [hv] at h1 h2 ⊢
    have hle : digitsValue d ≤ maxUint64 := by simp only [maxUint64]; omega
    simp only [ParseInt, true_or, or_true, if_true, ParseUint_digits d hd, hle]
    simp
    omega
  · rw [hv] at h1 h2 ⊢
    have hle : digitsValue d ≤ maxUint64 := by simp only [maxUint64]; omega
    simp only [ParseInt, true_or, or_true, if_true, ParseUint_digits d hd, hle]
    simp
    omega
  · rw [hv] at h1 h2 ⊢
    have hle : digitsValue t ≤ maxUint64 := by simp only [maxUint64]; omega
    cases t with
    | nil => simp [isDigits] at hd
    | cons c d =>
      have hp : c ≠ '+' := by rintro rfl; simp [sign] at hs
      have hm : c ≠ '-' := by rintro rfl; simp [sign] at hs
      simp only [ParseInt, hp, hm, or_self, if_false, ParseUint_digits _ hd, hle, if_true]
      simp
      omega

theorem notEOF_cons (s : ss) (c : Char) (r : List Char) (h : s.input = c :: r) :
    s.notEOF = .ok (ss.at (c :: r)) := by
  simp [ss.notEOF, ss.getRune, h, ss.UnreadRune, ss.at]

theorem SkipSpace_token (s : ss) (w t rest : List Char) (h : s.input = w ++ t ++ rest)
    (hw : ∀ c ∈ w, isBlank c = true) (ht : isToken t = true) :
    s.SkipSpace = .ok (ss.at (t ++ rest)) := by
  simp only [isToken, Bool.and_eq_true, Bool.not_eq_true', List.isEmpty_eq_false,
    List.all_eq_true] at ht
  cases t with
  | nil => exact absurd rfl ht.1
  | cons c t =>
    have hc : isSpace c = false := by simpa using ht.2 c (by simp)
    rw [ss.SkipSpace, h, List.append_assoc, skipSpaceRunes_blank_append _ _ hw]
    exact skipSpaceRunes_cons c _ hc

theorem convertString_token (s : ss) (w t rest : List Char) (h : s.input = w ++ t ++ rest)
    (hw : ∀ c ∈ w, isBlank c = true) (ht : isToken t = true)
    (hrest : stopsAt notSpace rest = true) :
    s.convertString = .ok (String.mk t, ss.at rest) := by
  have h1 := SkipSpace_token s w t rest h hw ht
  have h2 : (ss.at (t ++ rest)).SkipSpace = .ok (ss.at (t ++ rest)) :=
    SkipSpace_token _ [] t rest rfl (by simp) ht
  have ht2 := ht
  simp only [isToken, Bool.and_eq_true, Bool.not_eq_true', List.isEmpty_eq_false,
    List.all_eq_true] at ht2
  have h3 : tokenRunes notSpace (t ++ rest) = (t, ss.at rest) :=
    tokenRunes_append notSpace t rest (fun c hc => by simpa [notSpace] using ht2.2 c hc) hrest
  cases t with
  | nil => exact absurd rfl ht2.1
  | cons c t =>
    have h4 : (ss.at (c :: t ++ rest)).notEOF = .ok (ss.at (c :: t ++ rest)) :=
      notEOF_cons _ c (t ++ rest) rfl
    simp only [ss.convertString, h1, h4, ss.token, h2]
    have h5 : (ss.at (c :: t ++ rest)).input = c :: t ++ rest := rfl
    rw [h5, h3]

theorem advanceRunes_blank_append (w rest : List Char) (hw : ∀ c ∈ w, isBlank c = true)
    (hrest : stopsAt isBlank rest = true) : advanceRunes (w ++ rest) = ss.at rest := by
  induction w with
  | nil =>
    cases rest with
    | nil => rfl
    | cons c r =>
      simp only [stopsAt, isBlank, Bool.not_eq_true', Bool.and_eq_false_iff] at hrest
      have : ¬ (isSpace c = true ∧ c ≠ '\n') := by
        rintro ⟨h1, h2⟩
        rcases hrest with h | h
        · simp [h1] at h
        · simp at h; exact h2 h
      simp only [List.nil_append, advanceRunes, this, if_false, ss.UnreadRune, ss.at,
        List.isEmpty_cons, Bool.not_false]
  | cons c w ih =>
    have hc := hw c (by simp)
    have ih1 := ih (fun x hx => hw x (List.mem_cons_of_mem _ hx))
    simp only [List.cons_append, advanceRunes, isSpace_of_isBlank hc, ne_eq,
      ne_newline_of_isBlank hc, not_false_eq_true, and_self, if_true, List.append_eq, ih1]

theorem advance_blank (s : ss) (w rest : List Char) (h : s.input = w ++ rest)
    (hw : ∀ c ∈ w, isBlank c = true) (hne : w ≠ []) (hrest : stopsAt isBlank rest = true) :
    s.advance = .ok (ss.at rest) := by
  cases w with
  | nil => exact absurd rfl hne
  | cons c w =>
    have hc := hw c (by simp)
    have h1 := advanceRunes_blank_append w rest (fun x hx => hw x (List.mem_cons_of_mem _ hx)) hrest
    simp only [ss.advance, ss.getRune, h, List.cons_append, isSpace_of_isBlank hc, Bool.not_true,
      Bool.false_eq_true, if_false, ne_newline_of_isBlank hc, h1]

theorem advance_nil (s : ss) (h : s.input = []) : s.advance = .ok s := by
  simp [ss.advance, ss.getRune, h]


theorem accept_member (s : ss) (ok buf : List Char) (c : Char) (r : List Char)
    (h : s.input = c :: r) (hc : ok.contains c = true) :
    s.accept ok buf = (true, buf ++ [c], { input := r, pending := false }) := by
  simp only [ss.accept, ss.getRune, h, hc, if_true]

theorem accept_other (s : ss) (ok buf : List Char) (c : Char) (r : List Char)
    (h : s.input = c :: r) (hc : ok.contains c = false) :
    s.accept ok buf = (false, buf, ss.at (c :: r)) := by
  simp only [ss.accept, ss.getRune, h, hc, Bool.false_eq_true, if_false, ss.UnreadRune, ss.at,
    List.isEmpty_cons, Bool.not_false]

theorem scanNumber_digits (s : ss) (buf d rest : List Char) (h : s.input = d ++ rest)
    (hd : isDigits d = true) (hrest : stopsAt isDigit rest = true) :
    s.scanNumber decimalDigits buf = .ok (buf ++ d, ss.at rest) := by
  simp only [isDigits, Bool.and_eq_true, Bool.not_eq_true', List.isEmpty_eq_false,
    List.all_eq_true] at hd
  cases d with
  | nil => exact absurd rfl hd.1
  | cons c d =>
    have hc : decimalDigits.contains c = true := by
      rw [contains_decimalDigits]; exact hd.2 c (by simp)
    have h1 := notEOF_cons s c (d ++ rest) h
    have h2 := accept_member (ss.at (c :: (d ++ rest))) decimalDigits buf c (d ++ rest) rfl hc
    have h3 : acceptRunes decimalDigits (d ++ rest) = (d, ss.at rest) := by
      apply acceptRunes_append
      · intro x hx; rw [contains_decimalDigits]; exact hd.2 x (List.mem_cons_of_mem _ hx)
      · cases rest with
        | nil => rfl
        | cons x r =>
          simp only [stopsAt, Bool.not_eq_true'] at hrest ⊢
          rw [contains_decimalDigits]; exact hrest
    simp only [ss.scanNumber, h1, h2, h3, List.append_assoc, List.singleton_append]

theorem scanInt_parse (s : ss) (w t rest : List Char) (h : s.input = w ++ t ++ rest)
    (hw : ∀ c ∈ w, isBlank c = true) (ht : isIntToken t = true)
    (hrest : stopsAt isDigit rest = true) :
    s.scanInt intBits =
      match ParseInt t with
      | .error e => .error e
      | .ok i =>
        if i < - 2 ^ (intBits - 1) ∨ 2 ^ (intBits - 1) ≤ i then
          .error (.scanError ("integer overflow on token " ++ String.mk t))
        else .ok (i, ss.at rest) := by
  have hskip : ∀ (c : Char) (u : List Char), t = c :: u → isSpace c = false →
      s.SkipSpace = .ok (ss.at (t ++ rest)) := by
    intro c u htu hc
    rw [ss.SkipSpace, h, List.append_assoc, skipSpaceRunes_blank_append _ _ hw, htu]
    exact skipSpaceRunes_cons c _ hc
  rcases isIntToken_cases t ht with ⟨d, rfl, hd, _⟩ | ⟨d, rfl, hd, _⟩ | ⟨hd, hs, _⟩
  · have h1 : s.SkipSpace = .ok (ss.at ('+' :: (d ++ rest))) := hskip '+' d rfl (by decide)
    have h2 := notEOF_cons (ss.at ('+' :: (d ++ rest))) '+' (d ++ rest) rfl
    have h3 := accept_member (ss.at ('+' :: (d ++ rest))) sign [] '+' (d ++ rest) rfl (by decide)
    have h4 := scanNumber_digits { input := d ++ rest, pending := false } ['+'] d rest
      rfl hd hrest
    simp only [ss.scanInt, h1, h2, h3, h4, List.nil_append, List.singleton_append]
  · have h1 : s.SkipSpace = .ok (ss.at ('-' :: (d ++ rest))) := hskip '-' d rfl (by decide)
    have h2 := notEOF_cons (ss.at ('-' :: (d ++ rest))) '-' (d ++ rest) rfl
    have h3 := accept_member (ss.at ('-' :: (d ++ rest))) sign [] '-' (d ++ rest) rfl (by decide)
    have h4 := scanNumber_digits { input := d ++ rest, pending := false } ['-'] d rest
      rfl hd hrest
    simp only [ss.scanInt, h1, h2, h3, h4, List.nil_append, List.singleton_append]
  · cases t with
    | nil => simp [isDigits] at hd
    | cons c u =>
      have hc : isDigit c = true := by
        simp only [isDigits, Bool.and_eq_true, List.all_eq_true] at hd
        exact hd.2 c (by simp)
      have h1 : s.SkipSpace = .ok (ss.at (c :: (u ++ rest))) :=
        hskip c u rfl (not_isSpace_of_isDigit hc)
      have h2 := notEOF_cons (ss.at (c :: (u ++ rest))) c (u ++ rest) rfl
      have h3 := accept_other (ss.at (c :: (u ++ rest))) sign [] c (u ++ rest) rfl
        (by simpa using hs)
      have h4 := scanNumber_digits (ss.at (c :: (u ++ rest))) [] (c :: u) rest rfl hd hrest
      simp only [ss.scanInt, h1, h2, h3, h4, List.nil_append]

theorem scanInt_token (s : ss) (w t rest : List Char) (h : s.input = w ++ t ++ rest)
    (hw : ∀ c ∈ w, isBlank c = true) (ht : isIntToken t = true)
    (hr : inIntRange (intValue t)) (hrest : stopsAt isDigit rest = true) :
    s.scanInt intBits = .ok (intValue t, ss.at rest) := by
  have hrange : ¬ (intValue t < - 2 ^ (intBits - 1) ∨ 2 ^ (intBits - 1) ≤ intValue t) := by
    obtain ⟨h1, h2⟩ := hr
    simp only [intBits]
    omega
  rw [scanInt_parse s w t rest h hw ht hrest, ParseInt_token t ht hr]
  simp only [hrange, if_false]

theorem isToken_of_isIntToken (t : List Char) (h : isIntToken t = true) : isToken t = true := by
  have hdig : ∀ d, isDigits d = true → ∀ c ∈ d, isSpace c = false := by
    intro d hd c hc
    simp only [isDigits, Bool.and_eq_true, List.all_eq_true] at hd
    exact not_isSpace_of_isDigit (hd.2 c hc)
  simp only [isToken, Bool.and_eq_true, Bool.not_eq_true', List.isEmpty_eq_false,
    List.all_eq_true]
  rcases isIntToken_cases t h with ⟨d, rfl, hd, _⟩ | ⟨d, rfl, hd, _⟩ | ⟨hd, _, _⟩
  · refine ⟨by simp, ?_⟩
    intro c hc
    rcases List.mem_cons.1 hc with rfl | hc
    · decide
    · exact hdig d hd c hc
  · refine ⟨by simp, ?_⟩
    intro c hc
    rcases List.mem_cons.1 hc with rfl | hc
    · decide
    · exact hdig d hd c hc
  · refine ⟨?_, hdig t hd⟩
    simp only [isDigits, Bool.and_eq_true, Bool.not_eq_true', List.isEmpty_eq_false] at hd
    exact hd.1

theorem stopsAt_notSpace_separator (w x : List Char) (hw : isSeparator w = true) :
    stopsAt notSpace (w ++ x) = true := by
  simp only [isSeparator, Bool.and_eq_true, Bool.not_eq_true', List.isEmpty_eq_false,
    List.all_eq_true] at hw
  cases w with
  | nil => exact absurd rfl hw.1
  | cons c w => simp [stopsAt, notSpace, isSpace_of_isBlank (hw.2 c (by simp))]

theorem stopsAt_isDigit_separator (w x : List Char) (hw : isSeparator w = true) :
    stopsAt isDigit (w ++ x) = true := by
  simp only [isSeparator, Bool.and_eq_true, Bool.not_eq_true', List.isEmpty_eq_false,
    List.all_eq_true] at hw
  cases w with
  | nil => exact absurd rfl hw.1
  | cons c w =>
    have h1 := isSpace_of_isBlank (hw.2 c (by simp))
    cases hd : isDigit c with
    | false => simp [stopsAt, hd]
    | true => rw [not_isSpace_of_isDigit hd] at h1; cases h1

theorem stopsAt_isBlank_token (t x : List Char) (ht : isToken t = true) :
    stopsAt isBlank (t ++ x) = true := by
  simp only [isToken, Bool.and_eq_true, Bool.not_eq_true', List.isEmpty_eq_false,
    List.all_eq_true] at ht
  cases t with
  | nil => exact absurd rfl ht.1
  | cons c t =>
    have hc : isSpace c = false := by simpa using ht.2 c (by simp)
    simp [stopsAt, isBlank, hc]

theorem separator_blank (w : List Char) (hw : isSeparator w = true) :
    (∀ c ∈ w, isBlank c = true) ∧ w ≠ [] := by
  simp only [isSeparator, Bool.and_eq_true, Bool.not_eq_true', List.isEmpty_eq_false,
    List.all_eq_true] at hw
  exact ⟨hw.2, hw.1⟩

theorem doScanf_string (format : List Directive) (set : Entry → String → Entry) (a : List Arg)
    (n : Nat) (e : Entry) (s : ss) (w t rest : List Char) (h : s.input = w ++ (t ++ rest))
    (hw : ∀ c ∈ w, isBlank c = true) (ht : isToken t = true)
    (hrest : stopsAt notSpace rest = true) :
    doScanf (.verb 's' :: format) (.string set :: a) n e s =
      doScanf format a (n + 1) (set e (String.mk t)) (ss.at rest) := by
  have h1 := SkipSpace_token s w t rest (by rw [h, List.append_assoc]) hw ht
  have h2 := convertString_token (ss.at (t ++ rest)) [] t rest rfl (by simp) ht hrest
  simp only [doScanf, h1, ss.scanOne, h2, ne_eq, not_true_eq_false, if_false]

theorem doScanf_int (format : List Directive) (set : Entry → Int → Entry) (a : List Arg)
    (n : Nat) (e : Entry) (s : ss) (w t rest : List Char) (h : s.input = w ++ (t ++ rest))
    (hw : ∀ c ∈ w, isBlank c = true) (ht : isIntToken t = true)
    (hr : inIntRange (intValue t)) (hrest : stopsAt isDigit rest = true) :
    doScanf (.verb 'd' :: format) (.int set :: a) n e s =
      doScanf format a (n + 1) (set e (intValue t)) (ss.at rest) := by
  have h1 := SkipSpace_token s w t rest (by rw [h, List.append_assoc]) hw
    (isToken_of_isIntToken t ht)
  have h2 := scanInt_token (ss.at (t ++ rest)) [] t rest rfl (by simp) ht hr hrest
  simp only [doScanf, h1, ss.scanOne, h2, ne_eq, not_true_eq_false, if_false]

theorem doScanf_space (format : List Directive) (a : List Arg) (n : Nat) (e : Entry) (s : ss)
    (w rest : List Char) (h : s.input = w ++ rest) (hw : isSeparator w = true)
    (hrest : stopsAt isBlank rest = true) :
    doScanf (.space :: format) a n e s = doScanf format a n e (ss.at rest) := by
  have h1 := advance_blank s w rest h (separator_blank w hw).1 (separator_blank w hw).2 hrest
  simp only [doScanf, h1]

theorem doScanf_record (s : ss) (w : List Char) (r : Record) (s1 s2 s3 s4 s5 rest : List Char)
    (h : s.input = w ++ (r.layout s1 s2 s3 s4 s5 ++ rest))
    (hw : ∀ c ∈ w, isBlank c = true) (hr : r.wellFormed)
    (h1 : isSeparator s1 = true) (h2 : isSeparator s2 = true) (h3 : isSeparator s3 = true)
    (h4 : isSeparator s4 = true) (h5 : isSeparator s5 = true)
    (hrest : stopsAt isDigit rest = true) :
    doScanf mtabFmt operands 0 Entry.zero s = (6, none, r.scanned, ss.at rest) := by
  obtain ⟨t1, t2, t3, t4, t5, v5, t6, v6⟩ := hr
  simp only [Record.layout, List.append_assoc] at h
  simp only [mtabFmt, operands]
  rw [doScanf_string _ _ _ _ _ s w r.fsname _ h hw t1 (stopsAt_notSpace_separator _ _ h1)]
  rw [doScanf_space _ _ _ _ _ s1 _ rfl h1 (stopsAt_isBlank_token _ _ t2)]
  rw [doScanf_string _ _ _ _ _ _ [] r.dir _ rfl (by simp) t2 (stopsAt_notSpace_separator _ _ h2)]
  rw [doScanf_space _ _ _ _ _ s2 _ rfl h2 (stopsAt_isBlank_token _ _ t3)]
  rw [doScanf_string _ _ _ _ _ _ [] r.type_ _ rfl (by simp) t3 (stopsAt_notSpace_separator _ _ h3)]
  rw [doScanf_space _ _ _ _ _ s3 _ rfl h3 (stopsAt_isBlank_token _ _ t4)]
  rw [doScanf_string _ _ _ _ _ _ [] r.opts _ rfl (by simp) t4 (stopsAt_notSpace_separator _ _ h4)]
  rw [doScanf_space _ _ _ _ _ s4 _ rfl h4 (stopsAt_isBlank_token _ _ (isToken_of_isIntToken _ t5))]
  rw [doScanf_int _ _ _ _ _ _ [] r.freq _ rfl (by simp) t5 v5 (stopsAt_isDigit_separator _ _ h5)]
  rw [doScanf_space _ _ _ _ _ s5 _ rfl h5 (stopsAt_isBlank_token _ _ (isToken_of_isIntToken _ t6))]
  rw [doScanf_int _ _ _ _ _ _ [] r.passno _ rfl (by simp) t6 v6 hrest]
  rfl


/-! ## Decimal representations -/


theorem isDigit_digitChar (k : Nat) (hk : k < 10) :
    isDigit (Nat.digitChar k) = true ∧ (Nat.digitChar k).toNat - '0'.toNat = k := by
  interval_cases k <;> decide

theorem toDigitsCore_value (fuel n : Nat) (ds : List Char) (h : n < fuel) :
    (Nat.toDigitsCore 10 fuel n ds).foldl (fun n c => n * 10 + (c.toNat - '0'.toNat)) 0 =
      ds.foldl (fun n c => n * 10 + (c.toNat - '0'.toNat)) n := by
  induction fuel generalizing n ds with
  | zero => omega
  | succ fuel ih =>
    have hd := (isDigit_digitChar (n % 10) (Nat.mod_lt _ (by decide))).2
    simp only [Nat.toDigitsCore]
    split
    · rename_i h0
      have : n % 10 = n := by omega
      rw [this] at hd
      simp only [List.foldl_cons, this, hd, Nat.zero_mul, Nat.zero_add]
    · rename_i h0
      rw [ih (n / 10) _ (by omega)]
      simp only [List.foldl_cons, hd]
      congr 1
      omega

theorem toDigitsCore_digits (fuel n : Nat) (ds : List Char) (h : ∀ c ∈ ds, isDigit c = true) :
    ∀ c ∈ Nat.toDigitsCore 10 fuel n ds, isDigit c = true := by
  induction fuel generalizing n ds with
  | zero => simpa [Nat.toDigitsCore] using h
  | succ fuel ih =>
    have hd := (isDigit_digitChar (n % 10) (Nat.mod_lt _ (by decide))).1
    have h2 : ∀ c ∈ Nat.digitChar (n % 10) :: ds, isDigit c = true := by
      intro c hc
      rcases List.mem_cons.1 hc with rfl | hc
      · exact hd
      · exact h c hc
    simp only [Nat.toDigitsCore]
    split
    · exact h2
    · exact ih _ _ h2

theorem toDigitsCore_ne_nil (fuel n : Nat) (ds : List Char) (h : ds ≠ [] ∨ 0 < fuel) :
    Nat.toDigitsCore 10 fuel n ds ≠ [] := by
  induction fuel generalizing n ds with
  | zero =>
    rcases h with h | h
    · simpa [Nat.toDigitsCore] using h
    · omega
  | succ fuel ih =>
    simp only [Nat.toDigitsCore]
    split
    · simp
    · exact ih _ _ (Or.inl (by simp))

theorem isDigits_toDigits (n : Nat) : isDigits (Nat.toDigits 10 n) = true := by
  simp only [isDigits, Bool.and_eq_true, Bool.not_eq_true', List.isEmpty_eq_false,
    List.all_eq_true]
  exact ⟨toDigitsCore_ne_nil _ _ _ (Or.inr (by omega)),
    toDigitsCore_digits _ _ _ (by simp)⟩

theorem digitsValue_toDigits (n : Nat) : digitsValue (Nat.toDigits 10 n) = n := by
  simp only [digitsValue, Nat.toDigits]
  rw [toDigitsCore_value _ _ _ (by omega)]
  rfl

theorem isIntToken_of_isDigits (t : List Char) (h : isDigits t = true) :
    isIntToken t = true ∧ intValue t = (digitsValue t : Int) := by
  cases t with
  | nil => simp [isDigits] at h
  | cons c d =>
    have hc : isDigit c = true := by
      simp only [isDigits, Bool.and_eq_true, List.all_eq_true] at h
      exact h.2 c (by simp)
    have hp : c ≠ '+' := by rintro rfl; revert hc; decide
    have hm : c ≠ '-' := by rintro rfl; revert hc; decide
    constructor
    · unfold isIntToken
      split
      · rename_i heq; exact absurd (List.cons.inj heq).1 hp
      · rename_i heq; exact absurd (List.cons.inj heq).1 hm
      · exact h
    · unfold intValue
      split
      · rename_i heq; exact absurd (List.cons.inj heq).1 hp
      · rename_i heq; exact absurd (List.cons.inj heq).1 hm
      · rfl

theorem decimal_token (i : Int) : isIntToken (decimal i) = true ∧ intValue (decimal i) = i := by
  unfold decimal
  split
  · rename_i h
    refine ⟨by simpa [isIntToken] using isDigits_toDigits _, ?_⟩
    simp only [intValue, digitsValue_toDigits]
    omega
  · rename_i h
    obtain ⟨h1, h2⟩ := isIntToken_of_isDigits _ (isDigits_toDigits i.natAbs)
    refine ⟨h1, ?_⟩
    rw [h2, digitsValue_toDigits]
    omega


/-! ## Facts about the read loop -/

theorem free_at (rest : List Char) : (ss.at rest).free = rest.tail := by
  cases rest <;> rfl

theorem Fscanf_record (w : List Char) (r : Record) (s1 s2 s3 s4 s5 rest : List Char)
    (hw : ∀ c ∈ w, isBlank c = true) (hr : r.wellFormed)
    (h1 : isSeparator s1 = true) (h2 : isSeparator s2 = true) (h3 : isSeparator s3 = true)
    (h4 : isSeparator s4 = true) (h5 : isSeparator s5 = true)
    (hrest : stopsAt isDigit rest = true) :
    Fscanf (w ++ (r.layout s1 s2 s3 s4 s5 ++ rest)) mtabFmt operands Entry.zero =
      (6, none, r.scanned, rest.tail) := by
  have h := doScanf_record (newScanState (w ++ (r.layout s1 s2 s3 s4 s5 ++ rest))) w r
    s1 s2 s3 s4 s5 rest rfl hw hr h1 h2 h3 h4 h5 hrest
  simp only [Fscanf, h, free_at]

theorem unescapeFields_scanned (r : Record) : unescapeFields r.scanned = r.entry := rfl

theorem READLOOP_record (fuel : Nat) (out : List Entry) (w : List Char) (r : Record)
    (s1 s2 s3 s4 s5 rest : List Char)
    (hw : ∀ c ∈ w, isBlank c = true) (hr : r.wellFormed)
    (h1 : isSeparator s1 = true) (h2 : isSeparator s2 = true) (h3 : isSeparator s3 = true)
    (h4 : isSeparator s4 = true) (h5 : isSeparator s5 = true)
    (hrest : stopsAt isDigit rest = true) :
    READLOOP (fuel + 1) (w ++ (r.layout s1 s2 s3 s4 s5 ++ rest)) out =
      READLOOP fuel rest.tail (out ++ [r.entry]) := by
  have h := Fscanf_record w r s1 s2 s3 s4 s5 rest hw hr h1 h2 h3 h4 h5 hrest
  simp only [READLOOP, h, ne_eq, not_true_eq_false, if_false, unescapeFields_scanned]

theorem doScanf_string_eof (format : List Directive) (set : Entry → String → Entry)
    (a : List Arg) (n : Nat) (e : Entry) (s : ss)
    (h : skipSpaceRunes s.input = .ok { input := [], pending := false }) :
    doScanf (.verb 's' :: format) (.string set :: a) n e s =
      (n, some .EOF, e, { input := [], pending := false }) := by
  simp only [doScanf, ss.SkipSpace, h, ss.scanOne, ss.convertString, skipSpaceRunes, ss.notEOF,
    ss.getRune, ne_eq, not_true_eq_false, if_false]

theorem READLOOP_blank (fuel : Nat) (out : List Entry) (w : List Char)
    (hw : ∀ c ∈ w, isBlank c = true) :
    READLOOP (fuel + 1) w out = (out, none) := by
  have h1 : skipSpaceRunes w = .ok { input := [], pending := false } := by
    have := skipSpaceRunes_blank_append w [] hw
    rw [List.append_nil] at this
    rw [this]; rfl
  have h2 := doScanf_string_eof [.space, .verb 's', .space, .verb 's', .space, .verb 's', .space,
    .verb 'd', .space, .verb 'd'] (fun e v => { e with Fsname := v }) (operands.tail) 0
    Entry.zero (newScanState w) h1
  simp only [READLOOP, Fscanf, mtabFmt, operands, List.tail_cons] at h2 ⊢
  simp only [h2]

theorem separator_space : isSeparator [' '] = true := by decide

theorem READLOOP_line (fuel : Nat) (out : List Entry) (r : Record) (rest : List Char)
    (hr : r.wellFormed) :
    READLOOP (fuel + 1) (r.line ++ rest) out = READLOOP fuel rest (out ++ [r.entry]) := by
  have h := READLOOP_record fuel out [] r [' '] [' '] [' '] [' '] [' '] ('\n' :: rest)
    (by simp) hr separator_space separator_space separator_space separator_space
    separator_space rfl
  simpa [Record.line] using h

theorem READLOOP_linesOf (rs : List Record) (hrs : ∀ r ∈ rs, r.wellFormed) (fuel : Nat)
    (out : List Entry) (rest : List Char) :
    READLOOP (fuel + rs.length) (linesOf rs ++ rest) out =
      READLOOP fuel rest (out ++ rs.map Record.entry) := by
  induction rs generalizing out with
  | nil => simp [linesOf]
  | cons r rs ih =>
    have h1 := READLOOP_line (fuel + rs.length) out r (linesOf rs ++ rest) (hrs r (by simp))
    have h2 := ih (fun x hx => hrs x (List.mem_cons_of_mem _ hx)) (out ++ [r.entry])
    simp only [linesOf, List.length_cons, List.append_assoc, List.map_cons] at h1 ⊢
    rw [← Nat.add_assoc, h1, h2]
    simp

theorem length_linesOf (rs : List Record) : rs.length ≤ (linesOf rs).length := by
  induction rs with
  | nil => simp [linesOf]
  | cons r rs ih =>
    simp only [linesOf, Record.line, List.length_cons, List.length_append, List.length_nil]
    omega


theorem Entries_linesOf (open_ : String → Except Error String) (fname : String)
    (rs : List Record) (hrs : ∀ r ∈ rs, r.wellFormed)
    (hopen : open_ fname = .ok (String.mk (linesOf rs))) :
    Entries open_ fname = (rs.map Record.entry, none) := by
  simp only [Entries, hopen]
  obtain ⟨k, hk⟩ : ∃ k, (linesOf rs).length + 1 = (k + 1) + rs.length :=
    ⟨(linesOf rs).length - rs.length, by have := length_linesOf rs; omega⟩
  have h := READLOOP_linesOf rs hrs (k + 1) [] []
  rw [List.append_nil] at h
  rw [hk, h, READLOOP_blank k _ [] (by simp)]
  simp

theorem READLOOP_spread (ps : List Placed) (hps : ∀ p ∈ ps, p.wellPlaced) (fuel : Nat)
    (hfuel : ps.length < fuel) (w : List Char) (hw : ∀ c ∈ w, isBlank c = true)
    (out : List Entry) :
    READLOOP fuel (w ++ spread ps) out = (out ++ ps.map (fun p => p.record.entry), none) := by
  induction ps generalizing fuel w out with
  | nil =>
    obtain ⟨k, rfl⟩ : ∃ k, fuel = k + 1 := ⟨fuel - 1, by simp at hfuel; omega⟩
    simpa [spread] using READLOOP_blank k out w hw
  | cons p ps ih =>
    obtain ⟨hr, h1, h2, h3, h4, h5, hg⟩ := hps p (by simp)
    obtain ⟨k, rfl⟩ : ∃ k, fuel = k + 1 := ⟨fuel - 1, by simp at hfuel; omega⟩
    cases ps with
    | nil =>
      have h := READLOOP_record k out w p.record p.s1 p.s2 p.s3 p.s4 p.s5 [] hw hr h1 h2 h3 h4
        h5 rfl
      obtain ⟨j, rfl⟩ : ∃ j, k = j + 1 := ⟨k - 1, by simp at hfuel; omega⟩
      simp only [spread, Placed.body, List.append_nil, List.tail_nil] at h ⊢
      rw [h, READLOOP_blank j _ [] (by simp)]
      simp
    | cons q ps =>
      cases hgap : p.gap with
      | nil => rw [hgap] at hg; simp [isGap] at hg
      | cons c w1 =>
        rw [hgap] at hg
        simp only [isGap, Bool.and_eq_true, List.all_eq_true] at hg
        have hstop : stopsAt isDigit (c :: (w1 ++ spread (q :: ps))) = true := by
          cases hd : isDigit c with
          | false => simp [stopsAt, hd]
          | true => rw [not_isSpace_of_isDigit hd] at hg; cases hg.1
        have h := READLOOP_record k out w p.record p.s1 p.s2 p.s3 p.s4 p.s5
          (c :: (w1 ++ spread (q :: ps))) hw hr h1 h2 h3 h4 h5 hstop
        have h2 := ih (fun x hx => hps x (List.mem_cons_of_mem _ hx)) k
          (by simp at hfuel ⊢; omega) w1 hg.2 (out ++ [p.record.entry])
        simp only [spread, Placed.body, hgap, List.append_assoc, List.cons_append,
          List.tail_cons] at h ⊢
        rw [h, h2]
        simp

theorem length_spread (ps : List Placed) (hps : ∀ p ∈ ps, p.wellPlaced) :
    ps.length ≤ (spread ps).length := by
  have hbody : ∀ p : Placed, p.wellPlaced → 1 ≤ p.body.length := by
    intro p hp
    obtain ⟨⟨t1, _⟩, _⟩ := hp
    simp only [isToken, Bool.and_eq_true, Bool.not_eq_true', List.isEmpty_eq_false] at t1
    have := List.length_pos.2 t1.1
    simp only [Placed.body, Record.layout, List.length_append]
    omega
  induction ps with
  | nil => simp
  | cons p ps ih =>
    have h1 := hbody p (hps p (by simp))
    have h2 := ih (fun x hx => hps x (List.mem_cons_of_mem _ hx))
    cases ps with
    | nil => simpa [spread] using h1
    | cons q ps =>
      simp only [spread, List.length_append, List.length_cons] at h2 ⊢
      omega

theorem Entries_spread_of (open_ : String → Except Error String) (fname : String)
    (ps : List Placed) (hps : ∀ p ∈ ps, p.wellPlaced)
    (hopen : open_ fname = .ok (String.mk (spread ps))) :
    Entries open_ fname = (ps.map (fun p => p.record.entry), none) := by
  simp only [Entries, hopen]
  have h := READLOOP_spread ps hps ((spread ps).length + 1)
    (by have := length_spread ps hps; omega) [] (by simp) []
  simpa using h


/-! ## Every text field is a piece of the file -/

theorem skipSpaceRunes_suffix (inp : List Char) (s : ss) (h : skipSpaceRunes inp = .ok s) :
    s.input <:+ inp := by
  induction inp with
  | nil =>
    simp only [skipSpaceRunes, Except.ok.injEq] at h
    subst h
    exact List.suffix_refl _
  | cons r rest ih =>
    simp only [skipSpaceRunes] at h
    split at h
    · exact (ih h).trans (List.suffix_cons r rest)
    · split at h
      · cases h
      · split at h
        · simp only [ss.UnreadRune, Except.ok.injEq] at h
          subst h
          exact List.suffix_refl _
        · exact (ih h).trans (List.suffix_cons r rest)

theorem tokenRunes_split (f : Char → Bool) (inp : List Char) :
    (tokenRunes f inp).1 ++ (tokenRunes f inp).2.input = inp := by
  induction inp with
  | nil => rfl
  | cons r rest ih =>
    simp only [tokenRunes]
    split
    · rfl
    · simp only [List.cons_append, ih]

theorem acceptRunes_suffix (ok inp : List Char) : (acceptRunes ok inp).2.input <:+ inp := by
  induction inp with
  | nil => exact List.suffix_refl _
  | cons r rest ih =>
    simp only [acceptRunes]
    split
    · exact ih.trans (List.suffix_cons r rest)
    · exact List.suffix_refl _

theorem advanceRunes_suffix (inp : List Char) : (advanceRunes inp).input <:+ inp := by
  induction inp with
  | nil => exact List.suffix_refl _
  | cons r rest ih =>
    simp only [advanceRunes]
    split
    · exact ih.trans (List.suffix_cons r rest)
    · exact List.suffix_refl _

theorem notEOF_input (s s1 : ss) (h : s.notEOF = .ok s1) : s1.input = s.input := by
  simp only [ss.notEOF, ss.getRune] at h
  cases hi : s.input with
  | nil => rw [hi] at h; cases h
  | cons r rest =>
    rw [hi] at h
    simp only [ss.UnreadRune, Except.ok.injEq] at h
    subst h
    rfl

theorem convertString_piece (s s1 : ss) (v : String) (h : s.convertString = .ok (v, s1)) :
    v.data <:+: s.input ∧ s1.input <:+ s.input := by
  simp only [ss.convertString] at h
  cases h1 : s.SkipSpace with
  | error e => rw [h1] at h; cases h
  | ok a =>
    rw [h1] at h
    simp only at h
    cases h2 : a.notEOF with
    | error e => rw [h2] at h; cases h
    | ok b =>
      rw [h2] at h
      simp only [ss.token] at h
      cases h3 : b.SkipSpace with
      | error e => rw [h3] at h; cases h
      | ok c =>
        rw [h3] at h
        simp only [Except.ok.injEq, Prod.mk.injEq] at h
        obtain ⟨hv, hs⟩ := h
        have e1 : a.input <:+ s.input := skipSpaceRunes_suffix _ _ h1
        have e2 : b.input = a.input := notEOF_input _ _ h2
        have e3 : c.input <:+ b.input := skipSpaceRunes_suffix _ _ h3
        have e4 := tokenRunes_split notSpace c.input
        have hc : c.input <:+ s.input := e3.trans (e2 ▸ e1)
        subst hv hs
        constructor
        · exact (List.IsPrefix.isInfix ⟨_, e4⟩).trans hc.isInfix
        · exact (show _ <:+ c.input from ⟨_, e4⟩).trans hc


theorem accept_suffix (s : ss) (ok buf : List Char) :
    (s.accept ok buf).2.2.input <:+ s.input := by
  simp only [ss.accept, ss.getRune]
  cases hi : s.input with
  | nil => simp [hi]
  | cons r rest =>
    simp only
    split
    · exact List.suffix_cons r rest
    · exact List.suffix_refl _

theorem scanNumber_suffix (s s1 : ss) (digits buf tok : List Char)
    (h : s.scanNumber digits buf = .ok (tok, s1)) : s1.input <:+ s.input := by
  simp only [ss.scanNumber] at h
  cases h1 : s.notEOF with
  | error e => rw [h1] at h; cases h
  | ok a =>
    rw [h1] at h
    simp only at h
    have e1 := notEOF_input _ _ h1
    have e2 := accept_suffix a digits buf
    rcases hacc : a.accept digits buf with ⟨b, buf1, s2⟩
    rw [hacc] at h e2
    cases b with
    | false => cases h
    | true =>
      simp only [Except.ok.injEq, Prod.mk.injEq] at h
      rw [← h.2]
      exact (acceptRunes_suffix digits s2.input).trans (e2.trans (e1 ▸ List.suffix_refl _))

theorem scanInt_suffix (s s1 : ss) (bitSize : Nat) (i : Int)
    (h : s.scanInt bitSize = .ok (i, s1)) : s1.input <:+ s.input := by
  simp only [ss.scanInt] at h
  cases h1 : s.SkipSpace with
  | error e => rw [h1] at h; cases h
  | ok a =>
    rw [h1] at h
    simp only at h
    cases h2 : a.notEOF with
    | error e => rw [h2] at h; cases h
    | ok b =>
      rw [h2] at h
      simp only at h
      have e1 : a.input <:+ s.input := skipSpaceRunes_suffix _ _ h1
      have e2 := notEOF_input _ _ h2
      have e3 := accept_suffix b sign []
      cases h4 : (b.accept sign []).2.2.scanNumber decimalDigits (b.accept sign []).2.1 with
      | error e => rw [h4] at h; cases h
      | ok r =>
        obtain ⟨tok, s4⟩ := r
        rw [h4] at h
        simp only at h
        have e4 := scanNumber_suffix _ _ _ _ _ h4
        cases h5 : ParseInt tok with
        | error e => rw [h5] at h; cases h
        | ok v =>
          rw [h5] at h
          simp only at h
          split at h
          · cases h
          · simp only [Except.ok.injEq, Prod.mk.injEq] at h
            rw [← h.2]
            exact e4.trans (e3.trans (e2 ▸ e1))

theorem advance_suffix (s s1 : ss) (h : s.advance = .ok s1) : s1.input <:+ s.input := by
  simp only [ss.advance, ss.getRune] at h
  cases hi : s.input with
  | nil =>
    rw [hi] at h
    simp only [Except.ok.injEq] at h
    rw [← h, hi]
  | cons r rest =>
    rw [hi] at h
    simp only at h
    split at h
    · cases h
    · split at h
      · cases h
      · simp only [Except.ok.injEq] at h
        rw [← h]
        exact (advanceRunes_suffix rest).trans (List.suffix_cons r rest)


theorem free_suffix (s : ss) : s.free <:+ s.input := by
  simp only [ss.free]
  split
  · exact List.tail_suffix _
  · exact List.suffix_refl _

theorem leadingInt_append_afterInt (t : List Char) : leadingInt t ++ afterInt t = t := by
  unfold leadingInt afterInt
  split <;> simp [List.takeWhile_append_dropWhile]

theorem stopsAt_dropWhile (d rest : List Char) (h : stopsAt isDigit rest = true) :
    stopsAt isDigit (d.dropWhile isDigit ++ rest) = true := by
  induction d with
  | nil => simpa using h
  | cons c d ih =>
    simp only [List.dropWhile_cons]
    split
    · exact ih
    · rename_i hc
      simp only [Bool.not_eq_true] at hc
      simp [stopsAt, hc]

theorem stopsAt_afterInt (t rest : List Char) (h : stopsAt isDigit rest = true) :
    stopsAt isDigit (afterInt t ++ rest) = true := by
  unfold afterInt
  split <;> exact stopsAt_dropWhile _ _ h

theorem isDigits_takeWhile (d : List Char) (h : d.takeWhile isDigit ≠ []) :
    isDigits (d.takeWhile isDigit) = true := by
  simp only [isDigits, Bool.and_eq_true, Bool.not_eq_true', List.isEmpty_eq_false,
    List.all_eq_true]
  exact ⟨h, fun c hc => (List.mem_takeWhile_imp hc)⟩


theorem ParseInt_out_of_range (t : List Char) (h : isIntToken t = true)
    (hr : ¬ inIntRange (intValue t)) :
    ParseInt t = .error (.NumError "ParseInt" (String.mk t) "value out of range") := by
  simp only [inIntRange, not_and_or, not_le, not_lt] at hr
  rcases isIntToken_cases t h with ⟨d, rfl, hd, hv⟩ | ⟨d, rfl, hd, hv⟩ | ⟨hd, hs, hv⟩
  · rw [hv] at hr
    simp only [ParseInt, true_or, or_true, if_true, ParseUint_digits d hd]
    by_cases hle : digitsValue d ≤ maxUint64
    · simp only [hle, if_true]
      have : digitsValue d ≥ 2 ^ 63 := by omega
      simp
      omega
    · simp only [hle, if_false]
  · rw [hv] at hr
    simp only [ParseInt, true_or, or_true, if_true, ParseUint_digits d hd]
    by_cases hle : digitsValue d ≤ maxUint64
    · simp only [hle, if_true]
      have : digitsValue d > 2 ^ 63 := by omega
      simp
      omega
    · simp only [hle, if_false]
  · rw [hv] at hr
    cases t with
    | nil => simp [isDigits] at hd
    | cons c d =>
      have hp : c ≠ '+' := by rintro rfl; simp [sign] at hs
      have hm : c ≠ '-' := by rintro rfl; simp [sign] at hs
      simp only [ParseInt, hp, hm, or_self, if_false, ParseUint_digits _ hd]
      by_cases hle : digitsValue (c :: d) ≤ maxUint64
      · simp only [hle, if_true]
        have : digitsValue (c :: d) ≥ 2 ^ 63 := by omega
        simp [hm]
        omega
      · simp only [hle, if_false]

theorem scanInt_out_of_range (s : ss) (w t rest : List Char) (h : s.input = w ++ t ++ rest)
    (hw : ∀ c ∈ w, isBlank c = true) (ht : isIntToken t = true)
    (hr : ¬ inIntRange (intValue t)) (hrest : stopsAt isDigit rest = true) :
    s.scanInt intBits = .error (.NumError "ParseInt" (String.mk t) "value out of range") := by
  rw [scanInt_parse s w t rest h hw ht hrest, ParseInt_out_of_range t ht hr]

theorem scanNumber_no_digit (s : ss) (buf : List Char) (c : Char) (r : List Char)
    (h : s.input = c :: r) (hc : isDigit c = false) :
    s.scanNumber decimalDigits buf = .error (.scanError "expected integer") := by
  have h1 := notEOF_cons s c r h
  have h2 := accept_other (ss.at (c :: r)) decimalDigits buf c r rfl
    (by rw [contains_decimalDigits]; exact hc)
  simp only [ss.scanNumber, h1, h2]

theorem head_takeWhile_nil (d rest : List Char) (h : d.takeWhile isDigit = [])
    (c : Char) (r : List Char) (hrest : rest = c :: r) (hc : isDigit c = false) :
    ∃ x y, d ++ rest = x :: y ∧ isDigit x = false := by
  cases d with
  | nil => exact ⟨c, r, by simp [hrest], hc⟩
  | cons x y =>
    refine ⟨x, y ++ rest, rfl, ?_⟩
    simp only [List.takeWhile_cons] at h
    split at h
    · cases h
    · rename_i hx; simpa using hx

theorem scanInt_expected_integer (s : ss) (w t : List Char) (c : Char) (r : List Char)
    (h : s.input = w ++ t ++ c :: r) (hw : ∀ c ∈ w, isBlank c = true)
    (ht : isToken t = true) (hlead : isIntToken (leadingInt t) = false)
    (hc : isSpace c = true) :
    s.scanInt intBits = .error (.scanError "expected integer") := by
  have hcd : isDigit c = false := by
    cases hd : isDigit c with
    | false => rfl
    | true => rw [not_isSpace_of_isDigit hd] at hc; cases hc
  have ht2 := ht
  simp only [isToken, Bool.and_eq_true, Bool.not_eq_true', List.isEmpty_eq_false,
    List.all_eq_true] at ht2
  have h0 := SkipSpace_token s w t (c :: r) h hw ht
  cases t with
  | nil => exact absurd rfl ht2.1
  | cons x d =>
    have h1 : s.SkipSpace = .ok (ss.at (x :: (d ++ c :: r))) := h0
    have h2 := notEOF_cons (ss.at (x :: (d ++ c :: r))) x (d ++ c :: r) rfl
    by_cases hp : x = '+'
    · subst hp
      have hd : d.takeWhile isDigit = [] := by
        by_contra hne
        simp only [leadingInt, isIntToken, isDigits_takeWhile d hne] at hlead
        cases hlead
      obtain ⟨a, b, hab, ha⟩ := head_takeWhile_nil d (c :: r) hd c r rfl hcd
      have h3 := accept_member (ss.at ('+' :: (d ++ c :: r))) sign [] '+' (d ++ c :: r) rfl
        (by decide)
      have h4 := scanNumber_no_digit { input := d ++ c :: r, pending := false } ['+'] a b hab ha
      simp only [ss.scanInt, h1, h2, h3, List.nil_append, h4]
    · by_cases hm : x = '-'
      · subst hm
        have hd : d.takeWhile isDigit = [] := by
          by_contra hne
          simp only [leadingInt, isIntToken, isDigits_takeWhile d hne] at hlead
          cases hlead
        obtain ⟨a, b, hab, ha⟩ := head_takeWhile_nil d (c :: r) hd c r rfl hcd
        have h3 := accept_member (ss.at ('-' :: (d ++ c :: r))) sign [] '-' (d ++ c :: r) rfl
          (by decide)
        have h4 := scanNumber_no_digit { input := d ++ c :: r, pending := false } ['-'] a b hab ha
        simp only [ss.scanInt, h1, h2, h3, List.nil_append, h4]
      · have hl : leadingInt (x :: d) = (x :: d).takeWhile isDigit := by
          unfold leadingInt
          split
          · rename_i heq; exact absurd (List.cons.inj heq).1 hp
          · rename_i heq; exact absurd (List.cons.inj heq).1 hm
          · rfl
        have hx : isDigit x = false := by
          cases hxd : isDigit x with
          | false => rfl
          | true =>
            have hne : (x :: d).takeWhile isDigit ≠ [] := by simp [List.takeWhile_cons, hxd]
            have := (isIntToken_of_isDigits _ (isDigits_takeWhile _ hne)).1
            rw [hl, this] at hlead
            cases hlead
        have h3 := accept_other (ss.at (x :: (d ++ c :: r))) sign [] x (d ++ c :: r) rfl
          (by simp [sign, hp, hm])
        have h4 := scanNumber_no_digit (ss.at (x :: (d ++ c :: r))) [] x (d ++ c :: r) rfl hx
        simp only [ss.scanInt, h1, h2, h3, h4]


theorem advance_not_space (s : ss) (c : Char) (r : List Char) (h : s.input = c :: r)
    (hc : isSpace c = false) :
    s.advance = .error (.scanError "expected space in input to match format") := by
  simp [ss.advance, ss.getRune, h, hc]

theorem doScanf_int_error (format : List Directive) (set : Entry → Int → Entry) (a : List Arg)
    (n : Nat) (e : Entry) (s s1 : ss) (err : Error) (h1 : s.SkipSpace = .ok s1)
    (h2 : s1.scanInt intBits = .error err) :
    doScanf (.verb 'd' :: format) (.int set :: a) n e s = (n, some err, e, s1) := by
  simp only [doScanf, h1, ss.scanOne, h2, ne_eq, not_true_eq_false, if_false]

theorem doScanf_space_error (format : List Directive) (a : List Arg) (n : Nat) (e : Entry)
    (s : ss) (err : Error) (h1 : s.advance = .error err) :
    doScanf (.space :: format) a n e s = (n, some err, e, s) := by
  simp only [doScanf, h1]

theorem doScanf_four (s : ss) (w t1 t2 t3 t4 s1 s2 s3 s4 rest : List Char)
    (h : s.input = w ++ (t1 ++ (s1 ++ (t2 ++ (s2 ++ (t3 ++ (s3 ++ (t4 ++ (s4 ++ rest)))))))))
    (hw : ∀ c ∈ w, isBlank c = true)
    (ht1 : isToken t1 = true) (ht2 : isToken t2 = true) (ht3 : isToken t3 = true)
    (ht4 : isToken t4 = true)
    (h1 : isSeparator s1 = true) (h2 : isSeparator s2 = true) (h3 : isSeparator s3 = true)
    (h4 : isSeparator s4 = true) (hrest : stopsAt isBlank rest = true) :
    doScanf mtabFmt operands 0 Entry.zero s =
      doScanf [.verb 'd', .space, .verb 'd']
        [.int (fun e v => { e with Freq := v }), .int (fun e v => { e with Passno := v })] 4
        { Fsname := String.mk t1, Dir := String.mk t2, Type_ := String.mk t3,
          Opts := String.mk t4, Freq := 0, Passno := 0 } (ss.at rest) := by
  simp only [mtabFmt, operands]
  rw [doScanf_string _ _ _ _ _ s w t1 _ h hw ht1 (stopsAt_notSpace_separator _ _ h1)]
  rw [doScanf_space _ _ _ _ _ s1 _ rfl h1 (stopsAt_isBlank_token _ _ ht2)]
  rw [doScanf_string _ _ _ _ _ _ [] t2 _ rfl (by simp) ht2 (stopsAt_notSpace_separator _ _ h2)]
  rw [doScanf_space _ _ _ _ _ s2 _ rfl h2 (stopsAt_isBlank_token _ _ ht3)]
  rw [doScanf_string _ _ _ _ _ _ [] t3 _ rfl (by simp) ht3 (stopsAt_notSpace_separator _ _ h3)]
  rw [doScanf_space _ _ _ _ _ s3 _ rfl h3 (stopsAt_isBlank_token _ _ ht4)]
  rw [doScanf_string _ _ _ _ _ _ [] t4 _ rfl (by simp) ht4 (stopsAt_notSpace_separator _ _ h4)]
  rw [doScanf_space _ _ _ _ _ s4 _ rfl h4 hrest]
  rfl

theorem isToken_afterInt_head (t : List Char) (ht : isToken t = true) (h : afterInt t ≠ []) :
    ∃ c r, afterInt t = c :: r ∧ isSpace c = false := by
  simp only [isToken, Bool.and_eq_true, Bool.not_eq_true', List.isEmpty_eq_false,
    List.all_eq_true] at ht
  cases ha : afterInt t with
  | nil => exact absurd ha h
  | cons c r =>
    refine ⟨c, r, rfl, ?_⟩
    have hmem : c ∈ t := by
      have := leadingInt_append_afterInt t
      rw [ha] at this
      rw [← this]
      simp
    simpa using ht.2 c hmem

theorem isGoInt_of_leadingInt (t : List Char) (h1 : isIntToken (leadingInt t) = true)
    (h2 : inIntRange (intValue (leadingInt t))) (h3 : afterInt t = []) : isGoInt t := by
  have := leadingInt_append_afterInt t
  rw [h3, List.append_nil] at this
  rw [this] at h1 h2
  exact ⟨h1, h2⟩

theorem error_of_isIntegerScanError_ne_EOF (err : Error) (h : isIntegerScanError err) :
    err ≠ .EOF := by
  rintro rfl
  rcases h with h | h | ⟨_, h⟩ <;> cases h

/-- The scan of the integer at the start of the token `t`, on the runes
`t ++ c :: r` where `c` is a whitespace: an error when `t` starts with no integer
or with one out of range. -/
theorem scanInt_malformed (t : List Char) (c : Char) (r : List Char) (ht : isToken t = true)
    (hc : isSpace c = true)
    (hbad : isIntToken (leadingInt t) = false ∨ ¬ inIntRange (intValue (leadingInt t))) :
    ∃ err, (ss.at (t ++ c :: r)).scanInt intBits = .error err ∧ isIntegerScanError err := by
  have hcd : isDigit c = false := by
    cases hd : isDigit c with
    | false => rfl
    | true => rw [not_isSpace_of_isDigit hd] at hc; cases hc
  by_cases hlead : isIntToken (leadingInt t) = true
  · have hr : ¬ inIntRange (intValue (leadingInt t)) := by
      rcases hbad with hb | hb
      · rw [hlead] at hb; cases hb
      · exact hb
    refine ⟨_, scanInt_out_of_range (ss.at (t ++ c :: r)) [] (leadingInt t)
      (afterInt t ++ c :: r) ?_ (by simp) hlead hr (stopsAt_afterInt _ _ ?_), Or.inr (Or.inr ⟨_, rfl⟩)⟩
    · show t ++ c :: r = [] ++ leadingInt t ++ (afterInt t ++ c :: r)
      rw [List.nil_append, ← List.append_assoc, leadingInt_append_afterInt]
    · simp [stopsAt, hcd]
  · simp only [Bool.not_eq_true] at hlead
    exact ⟨_, scanInt_expected_integer (ss.at (t ++ c :: r)) [] t c r rfl (by simp) ht hlead hc,
      Or.inl rfl⟩

theorem doScanf_malformed (r : Record) (rest : List Char)
    (ht1 : isToken r.fsname = true) (ht2 : isToken r.dir = true) (ht3 : isToken r.type_ = true)
    (ht4 : isToken r.opts = true) (ht5 : isToken r.freq = true) (ht6 : isToken r.passno = true)
    (hbad : ¬ isGoInt r.freq ∨
      isIntToken (leadingInt r.passno) = false ∨ ¬ inIntRange (intValue (leadingInt r.passno))) :
    ∃ n err e s1, doScanf mtabFmt operands 0 Entry.zero (newScanState (r.line ++ rest)) =
      (n, some err, e, s1) ∧ isIntegerScanError err := by
  have h4 := doScanf_four (newScanState (r.line ++ rest)) [] r.fsname r.dir r.type_ r.opts
    [' '] [' '] [' '] [' '] (r.freq ++ ' ' :: (r.passno ++ '\n' :: rest))
    (by simp [newScanState, Record.line, Record.layout]) (by simp) ht1 ht2 ht3 ht4
    separator_space separator_space separator_space separator_space
    (stopsAt_isBlank_token _ _ ht5)
  rw [h4]
  have hskip := SkipSpace_token (ss.at (r.freq ++ ' ' :: (r.passno ++ '\n' :: rest))) []
    r.freq (' ' :: (r.passno ++ '\n' :: rest)) rfl (by simp) ht5
  by_cases h5 : isIntToken (leadingInt r.freq) = true ∧ inIntRange (intValue (leadingInt r.freq))
  · obtain ⟨h5a, h5b⟩ := h5
    have hscan := scanInt_token (ss.at (r.freq ++ ' ' :: (r.passno ++ '\n' :: rest))) []
      (leadingInt r.freq) (afterInt r.freq ++ ' ' :: (r.passno ++ '\n' :: rest))
      (by
        show r.freq ++ ' ' :: (r.passno ++ '\n' :: rest) =
          [] ++ leadingInt r.freq ++ (afterInt r.freq ++ ' ' :: (r.passno ++ '\n' :: rest))
        rw [List.nil_append, ← List.append_assoc, leadingInt_append_afterInt])
      (by simp) h5a h5b (stopsAt_afterInt _ _ rfl)
    have hstep : doScanf [.verb 'd', .space, .verb 'd']
        [.int (fun e v => { e with Freq := v }), .int (fun e v => { e with Passno := v })] 4
        { Fsname := String.mk r.fsname, Dir := String.mk r.dir, Type_ := String.mk r.type_,
          Opts := String.mk r.opts, Freq := 0, Passno := 0 }
        (ss.at (r.freq ++ ' ' :: (r.passno ++ '\n' :: rest))) =
        doScanf [.space, .verb 'd'] [.int (fun e v => { e with Passno := v })] 5
        { Fsname := String.mk r.fsname, Dir := String.mk r.dir, Type_ := String.mk r.type_,
          Opts := String.mk r.opts, Freq := intValue (leadingInt r.freq), Passno := 0 }
        (ss.at (afterInt r.freq ++ ' ' :: (r.passno ++ '\n' :: rest))) := by
      simp only [doScanf, hskip, ss.scanOne, hscan, ne_eq, not_true_eq_false, if_false]
    rw [hstep]
    by_cases hafter : afterInt r.freq = []
    · have hgood : isGoInt r.freq := isGoInt_of_leadingInt _ h5a h5b hafter
      have hbad6 : isIntToken (leadingInt r.passno) = false ∨
          ¬ inIntRange (intValue (leadingInt r.passno)) := by
        rcases hbad with hb | hb
        · exact absurd hgood hb
        · exact hb
      rw [hafter, List.nil_append]
      rw [doScanf_space _ _ _ _ _ [' '] _ rfl separator_space (stopsAt_isBlank_token _ _ ht6)]
      obtain ⟨err, herr, hkind⟩ := scanInt_malformed r.passno '\n' rest ht6 (by decide) hbad6
      have hskip6 := SkipSpace_token (ss.at (r.passno ++ '\n' :: rest)) [] r.passno
        ('\n' :: rest) rfl (by simp) ht6
      exact ⟨_, err, _, _, doScanf_int_error _ _ _ _ _ _ _ err hskip6 herr, hkind⟩
    · obtain ⟨x, y, hxy, hx⟩ := isToken_afterInt_head _ ht5 hafter
      have hadv := advance_not_space
        (ss.at (afterInt r.freq ++ ' ' :: (r.passno ++ '\n' :: rest))) x
        (y ++ ' ' :: (r.passno ++ '\n' :: rest)) (by simp [ss.at, hxy]) hx
      exact ⟨_, _, _, _, doScanf_space_error _ _ _ _ _ _ hadv, Or.inr (Or.inl rfl)⟩
  · have hbad5 : isIntToken (leadingInt r.freq) = false ∨
        ¬ inIntRange (intValue (leadingInt r.freq)) := by
      by_cases hl : isIntToken (leadingInt r.freq) = true
      · exact Or.inr (fun hr => h5 ⟨hl, hr⟩)
      · left; simpa using hl
    obtain ⟨err, herr, hkind⟩ := scanInt_malformed r.freq ' '
      (r.passno ++ '\n' :: rest) ht5 (by decide) hbad5
    exact ⟨_, err, _, _, doScanf_int_error _ _ _ _ _ _ _ err hskip herr, hkind⟩

theorem READLOOP_malformed (fuel : Nat) (out : List Entry) (r : Record) (rest : List Char)
    (ht1 : isToken r.fsname = true) (ht2 : isToken r.dir = true) (ht3 : isToken r.type_ = true)
    (ht4 : isToken r.opts = true) (ht5 : isToken r.freq = true) (ht6 : isToken r.passno = true)
    (hbad : ¬ isGoInt r.freq ∨
      isIntToken (leadingInt r.passno) = false ∨ ¬ inIntRange (intValue (leadingInt r.passno))) :
    ∃ err, READLOOP (fuel + 1) (r.line ++ rest) out = (out, some err) ∧
      isIntegerScanError err := by
  obtain ⟨n, err, e, s1, h, hkind⟩ := doScanf_malformed r rest ht1 ht2 ht3 ht4 ht5 ht6 hbad
  refine ⟨err, ?_, hkind⟩
  have hne := error_of_isIntegerScanError_ne_EOF err hkind
  simp only [READLOOP, Fscanf, h]

theorem Entries_malformed_of (open_ : String → Except Error String) (fname : String)
    (rs : List Record) (hrs : ∀ r ∈ rs, r.wellFormed) (r : Record) (rest : List Char)
    (ht1 : isToken r.fsname = true) (ht2 : isToken r.dir = true) (ht3 : isToken r.type_ = true)
    (ht4 : isToken r.opts = true) (ht5 : isToken r.freq = true) (ht6 : isToken r.passno = true)
    (hbad : ¬ isGoInt r.freq ∨
      isIntToken (leadingInt r.passno) = false ∨ ¬ inIntRange (intValue (leadingInt r.passno)))
    (hopen : open_ fname = .ok (String.mk (linesOf rs ++ (r.line ++ rest)))) :
    ∃ err, Entries open_ fname = (rs.map Record.entry, some err) ∧ isIntegerScanError err := by
  simp only [Entries, hopen]
  obtain ⟨k, hk⟩ : ∃ k, (linesOf rs ++ (r.line ++ rest)).length + 1 = (k + 1) + rs.length :=
    ⟨(linesOf rs ++ (r.line ++ rest)).length - rs.length, by
      have := length_linesOf rs
      simp only [List.length_append] at this ⊢
      omega⟩
  rw [hk, READLOOP_linesOf rs hrs (k + 1) [] (r.line ++ rest)]
  simpa using READLOOP_malformed k (rs.map Record.entry) r rest ht1 ht2 ht3 ht4 ht5 ht6 hbad


/-! ## Every call that goes on takes input: the fuel of the read loop -/

theorem skipSpaceRunes_head (inp : List Char) (s : ss) (h : skipSpaceRunes inp = .ok s) :
    s.input = [] ∨ ∃ c r, s.input = c :: r ∧ isSpace c = false := by
  induction inp with
  | nil =>
    simp only [skipSpaceRunes, Except.ok.injEq] at h
    subst h
    exact Or.inl rfl
  | cons r rest ih =>
    simp only [skipSpaceRunes] at h
    split at h
    · exact ih h
    · split at h
      · cases h
      · split at h
        · rename_i hr
          simp only [ss.UnreadRune, Except.ok.injEq] at h
          subst h
          exact Or.inr ⟨r, rest, rfl, by simpa using hr⟩
        · exact ih h

theorem convertString_shrinks (s s1 : ss) (v : String) (h : s.convertString = .ok (v, s1)) :
    s1.input.length < s.input.length := by
  simp only [ss.convertString] at h
  cases h1 : s.SkipSpace with
  | error e => rw [h1] at h; cases h
  | ok a =>
    rw [h1] at h
    simp only at h
    cases h2 : a.notEOF with
    | error e => rw [h2] at h; cases h
    | ok b =>
      rw [h2] at h
      simp only [ss.token] at h
      cases h3 : b.SkipSpace with
      | error e => rw [h3] at h; cases h
      | ok c =>
        rw [h3] at h
        simp only [Except.ok.injEq, Prod.mk.injEq] at h
        have e1 : a.input <:+ s.input := skipSpaceRunes_suffix _ _ h1
        have e2 : b.input = a.input := notEOF_input _ _ h2
        have e3 : c.input <:+ b.input := skipSpaceRunes_suffix _ _ h3
        have hne : b.input ≠ [] := by
          intro hb
          simp [ss.notEOF, ss.getRune, e2 ▸ hb] at h2
        rcases skipSpaceRunes_head _ _ h3 with hc | ⟨x, y, hc, hx⟩
        · have : b.input = [] := by
            cases hb : b.input with
            | nil => rfl
            | cons p q =>
              exfalso
              rcases skipSpaceRunes_head _ _ h1 with ha | ⟨x, y, ha, hx⟩
              · rw [e2, ha] at hb; cases hb
              · rw [e2, ha] at hb
                have h3b : skipSpaceRunes (x :: y) = .ok c := by
                  have : b.input = x :: y := by rw [e2, ha]
                  rw [← this]; exact h3
                rw [skipSpaceRunes_cons x y hx] at h3b
                simp only [Except.ok.injEq] at h3b
                rw [← h3b] at hc
                simp [ss.at] at hc
          exact absurd this hne
        · have htok : (tokenRunes notSpace c.input).2.input.length < c.input.length := by
            rw [hc]
            have hx2 : notSpace x = true := by simp [notSpace, hx]
            simp only [tokenRunes, hx2, Bool.not_true, Bool.false_eq_true, if_false]
            have := tokenRunes_split notSpace y
            have hl := congrArg List.length this
            simp only [List.length_append, List.length_cons] at hl ⊢
            omega
          rw [← h.2]
          have l1 := e1.length_le
          have l3 := e3.length_le
          rw [e2] at l3
          omega

theorem scanOne_suffix (s s1 : ss) (verb : Char) (arg : Arg) (e e1 : Entry)
    (h : s.scanOne verb arg e = .ok (e1, s1)) : s1.input <:+ s.input := by
  cases arg with
  | string set =>
    simp only [ss.scanOne] at h
    split at h
    · cases h
    · cases hc : s.convertString with
      | error err => rw [hc] at h; cases h
      | ok r =>
        obtain ⟨v, s2⟩ := r
        rw [hc] at h
        simp only [Except.ok.injEq, Prod.mk.injEq] at h
        rw [← h.2]
        exact (convertString_piece _ _ _ hc).2
  | int set =>
    simp only [ss.scanOne] at h
    split at h
    · cases h
    · cases hc : s.scanInt intBits with
      | error err => rw [hc] at h; cases h
      | ok r =>
        obtain ⟨v, s2⟩ := r
        rw [hc] at h
        simp only [Except.ok.injEq, Prod.mk.injEq] at h
        rw [← h.2]
        exact scanInt_suffix _ _ _ _ hc

theorem doScanf_suffix (format : List Directive) (a : List Arg) (n : Nat) (e : Entry) (s : ss) :
    (doScanf format a n e s).2.2.2.input <:+ s.input := by
  induction format generalizing a n e s with
  | nil =>
    simp only [doScanf]
    split <;> exact List.suffix_refl _
  | cons d format ih =>
    cases d with
    | space =>
      simp only [doScanf]
      cases h1 : s.advance with
      | error err => exact List.suffix_refl _
      | ok s1 => exact (ih a n e s1).trans (advance_suffix _ _ h1)
    | verb c =>
      simp only [doScanf]
      cases h1 : s.SkipSpace with
      | error err => exact List.suffix_refl _
      | ok s1 =>
        have hs1 : s1.input <:+ s.input := skipSpaceRunes_suffix _ _ h1
        cases a with
        | nil => exact hs1
        | cons arg rest =>
          simp only
          cases h2 : s1.scanOne c arg e with
          | error err => exact hs1
          | ok r =>
            obtain ⟨e1, s2⟩ := r
            exact (ih rest (n + 1) e1 s2).trans ((scanOne_suffix _ _ _ _ _ _ h2).trans hs1)

theorem doScanf_nil_count (format : List Directive) (a : List Arg) (n : Nat) (e : Entry)
    (s : ss) (h : (doScanf format a n e s).2.1 = none) :
    (doScanf format a n e s).1 = n + a.length := by
  induction format generalizing a n e s with
  | nil =>
    simp only [doScanf] at h ⊢
    split at h
    · cases h
    · rename_i ha
      simp only [Bool.not_eq_true, Bool.not_eq_false'] at ha
      rw [if_neg (by simp [ha])]
      simp [List.isEmpty_iff.1 ha]
  | cons d format ih =>
    cases d with
    | space =>
      simp only [doScanf] at h ⊢
      cases h1 : s.advance with
      | error err => rw [h1] at h; cases h
      | ok s1 =>
        rw [h1] at h
        exact ih a n e s1 h
    | verb c =>
      simp only [doScanf] at h ⊢
      cases h1 : s.SkipSpace with
      | error err => rw [h1] at h; cases h
      | ok s1 =>
        rw [h1] at h
        cases a with
        | nil => cases h
        | cons arg rest =>
          simp only at h ⊢
          cases h2 : s1.scanOne c arg e with
          | error err => rw [h2] at h; cases h
          | ok r =>
            obtain ⟨e1, s2⟩ := r
            rw [h2] at h
            simp only at h ⊢
            rw [ih rest (n + 1) e1 s2 h]
            simp only [List.length_cons]
            omega

theorem doScanf_string_shrinks (c : Char) (format : List Directive)
    (set : Entry → String → Entry) (a : List Arg) (n : Nat) (e : Entry) (s : ss)
    (h : (doScanf (.verb c :: format) (.string set :: a) n e s).2.1 = none) :
    (doScanf (.verb c :: format) (.string set :: a) n e s).2.2.2.input.length <
      s.input.length := by
  simp only [doScanf] at h ⊢
  cases h1 : s.SkipSpace with
  | error err => rw [h1] at h; cases h
  | ok s1 =>
    rw [h1] at h
    simp only at h ⊢
    cases h2 : s1.scanOne c (.string set) e with
    | error err => rw [h2] at h; cases h
    | ok r =>
      obtain ⟨e1, s2⟩ := r
      rw [h2] at h
      simp only at h ⊢
      have l1 := (skipSpaceRunes_suffix _ _ h1).length_le
      have l3 := (doScanf_suffix format a (n + 1) e1 s2).length_le
      have l2 : s2.input.length < s1.input.length := by
        simp only [ss.scanOne] at h2
        split at h2
        · cases h2
        · cases hc : s1.convertString with
          | error err => rw [hc] at h2; cases h2
          | ok r =>
            obtain ⟨v, s3⟩ := r
            rw [hc] at h2
            simp only [Except.ok.injEq, Prod.mk.injEq] at h2
            rw [← h2.2]
            exact convertString_shrinks _ _ _ hc
      omega

/-- A call of `Fscanf` that reports a nil error has processed all six operands and
has taken at least one character from the file. -/
theorem Fscanf_nil_error (f : List Char) (n : Nat) (e : Entry) (f1 : List Char)
    (h : Fscanf f mtabFmt operands Entry.zero = (n, none, e, f1)) :
    n = 6 ∧ f1.length < f.length := by
  simp only [Fscanf, Prod.mk.injEq] at h
  obtain ⟨hn, herr, _, hf⟩ := h
  constructor
  · rw [← hn, doScanf_nil_count _ _ _ _ _ herr]
    rfl
  · have h1 := doScanf_string_shrinks 's' (mtabFmt.tail) (fun e v => { e with Fsname := v })
      (operands.tail) 0 Entry.zero (newScanState f) herr
    have h2 := (free_suffix (doScanf mtabFmt operands 0 Entry.zero (newScanState f)).2.2.2).length_le
    rw [hf] at h2
    have h3 : (newScanState f).input.length = f.length := rfl
    have h4 : doScanf (.verb 's' :: mtabFmt.tail)
        (.string (fun e v => { e with Fsname := v }) :: operands.tail) 0 Entry.zero
        (newScanState f) = doScanf mtabFmt operands 0 Entry.zero (newScanState f) := rfl
    rw [h4] at h1
    omega

theorem READLOOP_fuel (fuel1 fuel2 : Nat) (f : List Char) (out : List Entry)
    (h1 : f.length < fuel1) (h2 : f.length < fuel2) :
    READLOOP fuel1 f out = READLOOP fuel2 f out := by
  induction fuel1 generalizing fuel2 f out with
  | zero => omega
  | succ k1 ih =>
    obtain ⟨k2, rfl⟩ : ∃ k2, fuel2 = k2 + 1 := ⟨fuel2 - 1, by omega⟩
    rcases hF : Fscanf f mtabFmt operands Entry.zero with ⟨n, err, e1, f1⟩
    simp only [READLOOP, hF]
    cases err with
    | some err => cases err <;> rfl
    | none =>
      have hlt := (Fscanf_nil_error f n e1 f1 hF).2
      simp only
      split
      · rfl
      · exact ih k2 f1 _ (by omega) (by omega)


/-! ## One pass or four: the replacer and its inverse -/

theorem lookup_escaped_not_escape (c : Char) (s : List Char) (hc : c ≠ '\\') :
    lookup escaped (c :: s) = none := by
  apply lookup_none
  intro p hp hpre
  simp only [escaped, List.mem_cons, List.mem_singleton, List.not_mem_nil, or_false] at hp
  rcases hp with rfl | rfl | rfl | rfl <;>
  · obtain ⟨t, ht⟩ := hpre
    simp only [List.cons_append, List.cons.injEq] at ht
    exact hc ht.1.symm

theorem replaceFrom_escapeRunes (t : List Char) :
    replaceFrom escaped 0 (escapeRunes t) = t := by
  induction t with
  | nil => rfl
  | cons c t ih =>
    simp only [escapeRunes, escapeChar]
    split
    · rename_i h; subst h
      rw [replaceFrom_escape (['\\', '0', '4', '0'], [' ']) (by simp [escaped]), ih]; rfl
    · split
      · rename_i h; subst h
        rw [replaceFrom_escape (['\\', '0', '1', '1'], ['\t']) (by simp [escaped]), ih]; rfl
      · split
        · rename_i h; subst h
          rw [replaceFrom_escape (['\\', '0', '1', '2'], ['\n']) (by simp [escaped]), ih]; rfl
        · split
          · rename_i h; subst h
            rw [replaceFrom_escape (['\\', '1', '3', '4'], ['\\']) (by simp [escaped]), ih]; rfl
          · rename_i h
            rw [List.singleton_append, replaceFrom_zero_cons, lookup_escaped_not_escape c _ h, ih]

theorem escapeRunes_no_space (t : List Char) :
    ∀ c ∈ escapeRunes t, c ≠ ' ' ∧ c ≠ '\t' ∧ c ≠ '\n' := by
  induction t with
  | nil => simp [escapeRunes]
  | cons x t ih =>
    intro c hc
    simp only [escapeRunes, List.mem_append] at hc
    rcases hc with hc | hc
    · simp only [escapeChar] at hc
      split at hc
      · simp only [List.mem_cons, List.mem_singleton, List.not_mem_nil, or_false] at hc
        rcases hc with rfl | rfl | rfl | rfl <;> decide
      · split at hc
        · simp only [List.mem_cons, List.mem_singleton, List.not_mem_nil, or_false] at hc
          rcases hc with rfl | rfl | rfl | rfl <;> decide
        · split at hc
          · simp only [List.mem_cons, List.mem_singleton, List.not_mem_nil, or_false] at hc
            rcases hc with rfl | rfl | rfl | rfl <;> decide
          · split at hc
            · simp only [List.mem_cons, List.mem_singleton, List.not_mem_nil, or_false] at hc
              rcases hc with rfl | rfl | rfl | rfl <;> decide
            · rename_i h1 h2 h3 h4
              simp only [List.mem_singleton] at hc
              subst hc
              exact ⟨h1, h2, h3⟩
    · exact ih c hc



theorem replaceAll_cons_of_not_hasPrefix (old new : List Char) (c : Char) (s : List Char)
    (h : ¬ old <+: c :: s) : replaceAll old new (c :: s) = c :: replaceAll old new s := by
  have h1 : hasPrefix (c :: s) old = false := by
    rw [← hasPrefix_iff] at h
    simpa using h
  simp only [replaceAll, replaceAllFrom, h1, Bool.false_eq_true, if_false]

theorem not_escape_prefix_of_ne (p : List Char × List Char) (hp : p ∈ escaped) (c : Char)
    (s : List Char) (hc : c ≠ '\\') : ¬ p.1 <+: c :: s := by
  intro hpre
  simp only [escaped, List.mem_cons, List.mem_singleton, List.not_mem_nil, or_false] at hp
  rcases hp with rfl | rfl | rfl | rfl <;>
  · obtain ⟨t, ht⟩ := hpre
    simp only [List.cons_append, List.cons.injEq] at ht
    exact hc ht.1.symm

theorem replaceAll_cons_ne (p : List Char × List Char) (hp : p ∈ escaped) (c : Char)
    (s : List Char) (hc : c ≠ '\\') :
    replaceAll p.1 p.2 (c :: s) = c :: replaceAll p.1 p.2 s :=
  replaceAll_cons_of_not_hasPrefix _ _ _ _ (not_escape_prefix_of_ne p hp c s hc)

theorem replaceAll_head (p : List Char × List Char) (hp : p ∈ escaped) (s u : List Char)
    (d : Char) (hd : d ≠ ' ' ∧ d ≠ '\t' ∧ d ≠ '\n' ∧ d ≠ '\\')
    (h : replaceAll p.1 p.2 s = d :: u) :
    ∃ s1, s = d :: s1 ∧ u = replaceAll p.1 p.2 s1 := by
  cases s with
  | nil => simp [replaceAll, replaceAllFrom] at h
  | cons c s1 =>
    by_cases hpre : p.1 <+: c :: s1
    · exfalso
      have h1 : hasPrefix (c :: s1) p.1 = true := (hasPrefix_iff _ _).2 hpre
      simp only [replaceAll, replaceAllFrom, h1, if_true] at h
      simp only [escaped, List.mem_cons, List.mem_singleton, List.not_mem_nil, or_false] at hp
      rcases hp with rfl | rfl | rfl | rfl <;>
        simp only [List.singleton_append, List.cons.injEq] at h
      · exact hd.1 h.1.symm
      · exact hd.2.1 h.1.symm
      · exact hd.2.2.1 h.1.symm
      · exact hd.2.2.2 h.1.symm
    · rw [replaceAll_cons_of_not_hasPrefix _ _ _ _ hpre] at h
      simp only [List.cons.injEq] at h
      exact ⟨s1, by rw [h.1], h.2.symm⟩

theorem replaceAll_three (p : List Char × List Char) (hp : p ∈ escaped) (s : List Char)
    (d1 d2 d3 : Char) (h1 : d1 ≠ ' ' ∧ d1 ≠ '\t' ∧ d1 ≠ '\n' ∧ d1 ≠ '\\')
    (h2 : d2 ≠ ' ' ∧ d2 ≠ '\t' ∧ d2 ≠ '\n' ∧ d2 ≠ '\\')
    (h3 : d3 ≠ ' ' ∧ d3 ≠ '\t' ∧ d3 ≠ '\n' ∧ d3 ≠ '\\')
    (h : [d1, d2, d3] <+: replaceAll p.1 p.2 s) : [d1, d2, d3] <+: s := by
  obtain ⟨r, hr⟩ := h
  simp only [List.cons_append, List.nil_append] at hr
  obtain ⟨s1, rfl, e1⟩ := replaceAll_head p hp s _ d1 h1 hr.symm
  obtain ⟨s2, rfl, e2⟩ := replaceAll_head p hp s1 _ d2 h2 e1.symm
  obtain ⟨s3, rfl, _⟩ := replaceAll_head p hp s2 _ d3 h3 e2.symm
  exact ⟨s3, rfl⟩

theorem sequentialRunes_cons_ne (c : Char) (s : List Char) (hc : c ≠ '\\') :
    sequentialRunes (c :: s) = c :: sequentialRunes s := by
  simp only [sequentialRunes]
  rw [replaceAll_cons_ne (['\\', '0', '4', '0'], [' ']) (by simp [escaped]) c _ hc,
    replaceAll_cons_ne (['\\', '0', '1', '1'], ['\t']) (by simp [escaped]) c _ hc,
    replaceAll_cons_ne (['\\', '0', '1', '2'], ['\n']) (by simp [escaped]) c _ hc,
    replaceAll_cons_ne (['\\', '1', '3', '4'], ['\\']) (by simp [escaped]) c _ hc]

theorem sequentialRunes_escape (p : List Char × List Char) (hp : p ∈ escaped) (s : List Char) :
    sequentialRunes (p.1 ++ s) = p.2 ++ sequentialRunes s := by
  simp only [escaped, List.mem_cons, List.mem_singleton, List.not_mem_nil, or_false] at hp
  rcases hp with rfl | rfl | rfl | rfl <;>
    simp [sequentialRunes, replaceAll, replaceAllFrom, hasPrefix]


theorem sequentialRunes_cons_of_no_match (c : Char) (s : List Char)
    (h : ∀ p ∈ escaped, ¬ p.1 <+: c :: s) :
    sequentialRunes (c :: s) = c :: sequentialRunes s := by
  by_cases hc : c = '\\'
  · subst hc
    have m1 : (['\\', '0', '4', '0'], [' ']) ∈ escaped := by simp [escaped]
    have m2 : (['\\', '0', '1', '1'], ['\t']) ∈ escaped := by simp [escaped]
    have m3 : (['\\', '0', '1', '2'], ['\n']) ∈ escaped := by simp [escaped]
    have m4 : (['\\', '1', '3', '4'], ['\\']) ∈ escaped := by simp [escaped]
    have k1 : ¬ ['0', '4', '0'] <+: s := fun hp => h _ m1 ((List.cons_prefix_cons).2 ⟨rfl, hp⟩)
    have k2 : ¬ ['0', '1', '1'] <+: s := fun hp => h _ m2 ((List.cons_prefix_cons).2 ⟨rfl, hp⟩)
    have k3 : ¬ ['0', '1', '2'] <+: s := fun hp => h _ m3 ((List.cons_prefix_cons).2 ⟨rfl, hp⟩)
    have k4 : ¬ ['1', '3', '4'] <+: s := fun hp => h _ m4 ((List.cons_prefix_cons).2 ⟨rfl, hp⟩)
    simp only [sequentialRunes]
    rw [replaceAll_cons_of_not_hasPrefix _ _ _ _
      (fun hp => k1 ((List.cons_prefix_cons).1 hp).2)]
    rw [replaceAll_cons_of_not_hasPrefix _ _ _ _
      (fun hp => k2 (replaceAll_three _ m1 s _ _ _ (by decide) (by decide) (by decide)
        ((List.cons_prefix_cons).1 hp).2))]
    rw [replaceAll_cons_of_not_hasPrefix _ _ _ _
      (fun hp => k3 (replaceAll_three _ m1 s _ _ _ (by decide) (by decide) (by decide)
        (replaceAll_three _ m2 _ _ _ _ (by decide) (by decide) (by decide)
          ((List.cons_prefix_cons).1 hp).2)))]
    rw [replaceAll_cons_of_not_hasPrefix _ _ _ _
      (fun hp => k4 (replaceAll_three _ m1 s _ _ _ (by decide) (by decide) (by decide)
        (replaceAll_three _ m2 _ _ _ _ (by decide) (by decide) (by decide)
          (replaceAll_three _ m3 _ _ _ _ (by decide) (by decide) (by decide)
            ((List.cons_prefix_cons).1 hp).2))))]
  · exact sequentialRunes_cons_ne c s hc

theorem replaceFrom_eq_sequentialRunes (s : List Char) :
    replaceFrom escaped 0 s = sequentialRunes s := by
  obtain ⟨n, hn⟩ : ∃ n, s.length = n := ⟨_, rfl⟩
  induction n using Nat.strong_induction_on generalizing s with
  | _ n ih =>
    cases s with
    | nil => rfl
    | cons c t =>
      cases hl : lookup escaped (c :: t) with
      | none =>
        have hno := not_hasPrefix_of_lookup_none _ _ hl
        rw [replaceFrom_zero_cons, hl, sequentialRunes_cons_of_no_match c t hno]
        simp only [List.cons.injEq, true_and]
        exact ih t.length (by simp at hn; omega) t rfl
      | some v =>
        obtain ⟨nw, k⟩ := v
        obtain ⟨old, hmem, _, ⟨r, hr⟩⟩ := lookup_some _ _ _ _ hl
        rw [← hr, replaceFrom_escape (old, nw) hmem, sequentialRunes_escape (old, nw) hmem]
        have hlen : r.length < n := by
          have := congrArg List.length hr
          simp only [List.length_append, List.length_cons] at this
          have hold : old.length = 4 := by
            simp only [escaped, List.mem_cons, Prod.mk.injEq, List.mem_singleton,
              List.not_mem_nil, or_false] at hmem
            rcases hmem with ⟨rfl, _⟩ | ⟨rfl, _⟩ | ⟨rfl, _⟩ | ⟨rfl, _⟩ <;> rfl
          simp only [List.length_cons] at hn
          omega
        rw [ih r.length hlen r rfl]


/-! ## The errors of a scan -/

theorem skipSpaceRunes_error (inp : List Char) (err : Error)
    (h : skipSpaceRunes inp = .error err) : err.ofScanner = true := by
  induction inp with
  | nil => simp [skipSpaceRunes] at h
  | cons r rest ih =>
    simp only [skipSpaceRunes] at h
    split at h
    · exact ih h
    · split at h
      · simp only [Except.error.injEq] at h
        subst h; rfl
      · split at h
        · cases h
        · exact ih h

theorem notEOF_error (s : ss) (err : Error) (h : s.notEOF = .error err) :
    err.ofScanner = true := by
  simp only [ss.notEOF, ss.getRune] at h
  cases hi : s.input with
  | nil =>
    rw [hi] at h
    simp only [Except.error.injEq] at h
    subst h; rfl
  | cons r rest => rw [hi] at h; cases h

theorem scanNumber_error (s : ss) (digits buf : List Char) (err : Error)
    (h : s.scanNumber digits buf = .error err) : err.ofScanner = true := by
  simp only [ss.scanNumber] at h
  cases h1 : s.notEOF with
  | error e =>
    rw [h1] at h
    simp only [Except.error.injEq] at h
    subst h
    exact notEOF_error _ _ h1
  | ok a =>
    rw [h1] at h
    simp only at h
    rcases hacc : a.accept digits buf with ⟨b, buf1, s2⟩
    rw [hacc] at h
    cases b with
    | false =>
      simp only [Except.error.injEq] at h
      subst h; rfl
    | true => cases h

theorem ParseInt_error (t : List Char) (err : Error) (h : ParseInt t = .error err) :
    err.ofScanner = true := by
  cases t with
  | nil =>
    simp only [ParseInt, Except.error.injEq] at h
    subst h; rfl
  | cons c rest =>
    simp only [ParseInt] at h
    split at h
    · simp only [Except.error.injEq] at h
      subst h; rfl
    · simp only [Except.error.injEq] at h
      subst h; rfl
    · split at h
      · simp only [Except.error.injEq] at h
        subst h; rfl
      · split at h
        · simp only [Except.error.injEq] at h
          subst h; rfl
        · cases h

theorem scanInt_error (s : ss) (bitSize : Nat) (err : Error)
    (h : s.scanInt bitSize = .error err) : err.ofScanner = true := by
  simp only [ss.scanInt] at h
  cases h1 : s.SkipSpace with
  | error e =>
    rw [h1] at h
    simp only [Except.error.injEq] at h
    subst h
    exact skipSpaceRunes_error _ _ h1
  | ok a =>
    rw [h1] at h
    simp only at h
    cases h2 : a.notEOF with
    | error e =>
      rw [h2] at h
      simp only [Except.error.injEq] at h
      subst h
      exact notEOF_error _ _ h2
    | ok b =>
      rw [h2] at h
      simp only at h
      cases h4 : (b.accept sign []).2.2.scanNumber decimalDigits (b.accept sign []).2.1 with
      | error e =>
        rw [h4] at h
        simp only [Except.error.injEq] at h
        subst h
        exact scanNumber_error _ _ _ _ h4
      | ok r =>
        obtain ⟨tok, s4⟩ := r
        rw [h4] at h
        simp only at h
        cases h5 : ParseInt tok with
        | error e =>
          rw [h5] at h
          simp only [Except.error.injEq] at h
          subst h
          exact ParseInt_error _ _ h5
        | ok v =>
          rw [h5] at h
          simp only at h
          split at h
          · simp only [Except.error.injEq] at h
            subst h; rfl
          · cases h

theorem convertString_error (s : ss) (err : Error) (h : s.convertString = .error err) :
    err.ofScanner = true := by
  simp only [ss.convertString] at h
  cases h1 : s.SkipSpace with
  | error e =>
    rw [h1] at h
    simp only [Except.error.injEq] at h
    subst h
    exact skipSpaceRunes_error _ _ h1
  | ok a =>
    rw [h1] at h
    simp only at h
    cases h2 : a.notEOF with
    | error e =>
      rw [h2] at h
      simp only [Except.error.injEq] at h
      subst h
      exact notEOF_error _ _ h2
    | ok b =>
      rw [h2] at h
      simp only [ss.token] at h
      cases h3 : b.SkipSpace with
      | error e =>
        rw [h3] at h
        simp only [Except.error.injEq] at h
        subst h
        exact skipSpaceRunes_error _ _ h3
      | ok c => rw [h3] at h; cases h

theorem advance_error (s : ss) (err : Error) (h : s.advance = .error err) :
    err.ofScanner = true := by
  simp only [ss.advance, ss.getRune] at h
  cases hi : s.input with
  | nil => rw [hi] at h; cases h
  | cons r rest =>
    rw [hi] at h
    simp only at h
    split at h
    · simp only [Except.error.injEq] at h
      subst h; rfl
    · split at h
      · simp only [Except.error.injEq] at h
        subst h; rfl
      · cases h

theorem scanOne_error (s : ss) (verb : Char) (arg : Arg) (e : Entry) (err : Error)
    (h : s.scanOne verb arg e = .error err) : err.ofScanner = true := by
  cases arg with
  | string set =>
    simp only [ss.scanOne] at h
    split at h
    · simp only [Except.error.injEq] at h
      subst h; rfl
    · cases hc : s.convertString with
      | error e1 =>
        rw [hc] at h
        simp only [Except.error.injEq] at h
        subst h
        exact convertString_error _ _ hc
      | ok r => rw [hc] at h; cases h
  | int set =>
    simp only [ss.scanOne] at h
    split at h
    · simp only [Except.error.injEq] at h
      subst h; rfl
    · cases hc : s.scanInt intBits with
      | error e1 =>
        rw [hc] at h
        simp only [Except.error.injEq] at h
        subst h
        exact scanInt_error _ _ _ hc
      | ok r => rw [hc] at h; cases h

theorem doScanf_error (format : List Directive) (a : List Arg) (n : Nat) (e : Entry) (s : ss)
    (err : Error) (h : (doScanf format a n e s).2.1 = some err) : err.ofScanner = true := by
  induction format generalizing a n e s with
  | nil =>
    simp only [doScanf] at h
    split at h
    · simp only [Option.some.injEq] at h
      subst h; rfl
    · cases h
  | cons d format ih =>
    cases d with
    | space =>
      simp only [doScanf] at h
      cases h1 : s.advance with
      | error e1 =>
        rw [h1] at h
        simp only [Option.some.injEq] at h
        subst h
        exact advance_error _ _ h1
      | ok s1 =>
        rw [h1] at h
        exact ih a n e s1 h
    | verb c =>
      simp only [doScanf] at h
      cases h1 : s.SkipSpace with
      | error e1 =>
        rw [h1] at h
        simp only [Option.some.injEq] at h
        subst h
        exact skipSpaceRunes_error _ _ h1
      | ok s1 =>
        rw [h1] at h
        cases a with
        | nil =>
          simp only [Option.some.injEq] at h
          subst h; rfl
        | cons arg rest =>
          simp only at h
          cases h2 : s1.scanOne c arg e with
          | error e1 =>
            rw [h2] at h
            simp only [Option.some.injEq] at h
            subst h
            exact scanOne_error _ _ _ _ _ h2
          | ok r =>
            obtain ⟨e1, s2⟩ := r
            rw [h2] at h
            exact ih rest (n + 1) e1 s2 h

theorem Fscanf_error (f : List Char) (n : Nat) (err : Error) (e : Entry) (f1 : List Char)
    (h : Fscanf f mtabFmt operands Entry.zero = (n, some err, e, f1)) :
    err.ofScanner = true := by
  simp only [Fscanf, Prod.mk.injEq] at h
  exact doScanf_error _ _ _ _ _ err h.2.1


/-! ## The read loop as a whole -/

theorem READLOOP_cases (fuel : Nat) (f : List Char) (out : List Entry) :
    (∃ n e f1, Fscanf f mtabFmt operands Entry.zero = (n, some .EOF, e, f1) ∧
      READLOOP (fuel + 1) f out = (out, none)) ∨
    (∃ n err e f1, Fscanf f mtabFmt operands Entry.zero = (n, some err, e, f1) ∧
      err.ofScanner = true ∧ READLOOP (fuel + 1) f out = (out, some err)) ∨
    (∃ e f1, Fscanf f mtabFmt operands Entry.zero = (6, none, e, f1) ∧
      f1.length < f.length ∧
      READLOOP (fuel + 1) f out = READLOOP fuel f1 (out ++ [unescapeFields e])) := by
  rcases hF : Fscanf f mtabFmt operands Entry.zero with ⟨n, err, e, f1⟩
  cases err with
  | some err =>
    have hs := Fscanf_error f n err e f1 hF
    by_cases he : err = .EOF
    · subst he
      exact Or.inl ⟨n, e, f1, rfl, by simp only [READLOOP, hF]⟩
    · refine Or.inr (Or.inl ⟨n, err, e, f1, rfl, hs, ?_⟩)
      simp only [READLOOP, hF]
  | none =>
    obtain ⟨hn, hlt⟩ := Fscanf_nil_error f n e f1 hF
    subst hn
    exact Or.inr (Or.inr ⟨e, f1, rfl, hlt, by simp [READLOOP, hF]⟩)

theorem READLOOP_error (fuel : Nat) (f : List Char) (out : List Entry) (err : Error)
    (h : (READLOOP fuel f out).2 = some err) : err.ofScanner = true := by
  induction fuel generalizing f out with
  | zero => simp [READLOOP] at h
  | succ fuel ih =>
    rcases READLOOP_cases fuel f out with ⟨_, _, _, _, hR⟩ | ⟨_, e1, _, _, _, hs, hR⟩ |
      ⟨_, f1, _, _, hR⟩
    · rw [hR] at h; cases h
    · rw [hR] at h
      simp only [Option.some.injEq] at h
      subst h; exact hs
    · rw [hR] at h
      exact ih _ _ h

theorem READLOOP_length (fuel : Nat) (f : List Char) (out : List Entry) :
    (READLOOP fuel f out).1.length ≤ out.length + f.length := by
  induction fuel generalizing f out with
  | zero => simp [READLOOP]
  | succ fuel ih =>
    rcases READLOOP_cases fuel f out with ⟨_, _, _, _, hR⟩ | ⟨_, e1, _, _, _, hs, hR⟩ |
      ⟨e, f1, _, hlt, hR⟩
    · rw [hR]; simp
    · rw [hR]; simp
    · rw [hR]
      have := ih f1 (out ++ [unescapeFields e])
      simp only [List.length_append, List.length_singleton] at this
      omega

theorem READLOOP_out (fuel : Nat) (f : List Char) (out : List Entry) :
    READLOOP fuel f out = (out ++ (READLOOP fuel f []).1, (READLOOP fuel f []).2) := by
  induction fuel generalizing f out with
  | zero => simp [READLOOP]
  | succ fuel ih =>
    rcases hF : Fscanf f mtabFmt operands Entry.zero with ⟨n, err, e, f1⟩
    simp only [READLOOP, hF]
    cases err with
    | some err => cases err <;> simp
    | none =>
      simp only
      split
      · simp
      · rw [ih f1 (out ++ [unescapeFields e]), ih f1 ([] ++ [unescapeFields e])]
        simp

theorem READLOOP_stops (fuel : Nat) (f : List Char) (out : List Entry) (n : Nat) (err : Error)
    (e : Entry) (f1 : List Char)
    (h : Fscanf f mtabFmt operands Entry.zero = (n, some err, e, f1)) :
    (READLOOP (fuel + 1) f out).1 = out := by
  simp only [READLOOP, h]
  cases err <;> rfl


/-! ## Lines without a final newline, residues of the one pass, counted scans -/

theorem READLOOP_run_fst (fuel : Nat) (f : List Char) (out : List Entry) :
    (READLOOP.run fuel f out).1 = READLOOP fuel f out := by
  induction fuel generalizing f out with
  | zero => rfl
  | succ fuel ih =>
    rcases hF : Fscanf f mtabFmt operands Entry.zero with ⟨n, err, e, f1⟩
    simp only [READLOOP.run, READLOOP, hF]
    cases err with
    | some err => cases err <;> rfl
    | none =>
      simp only
      split
      · rfl
      · exact ih _ _

theorem Entries_run_fst (open_ : String → Except Error String) (fname : String) :
    (Entries.run open_ fname).1 = Entries open_ fname := by
  simp only [Entries.run, Entries]
  cases open_ fname with
  | error err => rfl
  | ok f => exact READLOOP_run_fst _ _ _

theorem READLOOP_run_scans (fuel : Nat) (f : List Char) (out : List Entry)
    (hfuel : f.length < fuel) :
    (READLOOP.run fuel f out).2 + out.length = (READLOOP.run fuel f out).1.1.length + 1 := by
  induction fuel generalizing f out with
  | zero => omega
  | succ fuel ih =>
    rcases hF : Fscanf f mtabFmt operands Entry.zero with ⟨n, err, e, f1⟩
    simp only [READLOOP.run, hF]
    cases err with
    | some err => cases err <;> simp <;> omega
    | none =>
      obtain ⟨hn, hlt⟩ := Fscanf_nil_error f n e f1 hF
      subst hn
      simp only [ne_eq, not_true_eq_false, if_false]
      have := ih f1 (out ++ [unescapeFields e]) (by omega)
      simp only [List.length_append, List.length_singleton] at this
      omega

theorem Entries_run_scans (open_ : String → Except Error String) (fname content : String)
    (hopen : open_ fname = .ok content) :
    (Entries.run open_ fname).2 = (Entries open_ fname).1.length + 1 := by
  rw [← Entries_run_fst]
  simp only [Entries.run, hopen]
  have := READLOOP_run_scans (content.data.length + 1) content.data [] (by omega)
  simpa using this

/-- C1, as stated, fails: a record whose dump frequency is the base-10 integer
token `99999999999999999999`, above the range of int, yields no entry and the range
error of `strconv.ParseInt`. -/
theorem Entries_integer_out_of_range :
    Entries (fun _ => .ok "/dev/sda1 / ext4 rw 99999999999999999999 2\n") "/etc/fstab" =
      ([], some (.NumError "ParseInt" "99999999999999999999" "value out of range")) := by
  decide

/-- C2: `escaped.Replace` replaces every occurrence of an escape sequence: for all
strings `a`, `b` and each of the four pairs, unescaping `a ++ sequence ++ b` gives
the unescaped `a`, the character of the sequence, and the unescaped `b`; with the
three examples of the specification. -/
theorem Replace_every_occurrence :
    (∀ (a b : String) (p : List Char × List Char), p ∈ escaped →
      Replace (a ++ String.mk p.1 ++ b) = Replace a ++ String.mk p.2 ++ Replace b) ∧
    Replace "/mnt/foo\\040bar" = "/mnt/foo bar" ∧
    Replace "a\\134b" = "a\\b" ∧
    Replace "tab\\011here" = "tab\there" := by
  refine ⟨?_, by decide, by decide, by decide⟩
  intro a b p hp
  apply String.ext
  simp only [Replace, String.data_append, List.append_assoc]
  rw [replaceFrom_append _ _ (startsEscape_escape p hp _), Nat.zero_sub, replaceFrom_escape p hp]

/-- C7: `escaped.Replace` is the identity on a string that holds no occurrence of
any of the four escape sequences. -/
theorem Replace_escape_free (s : String) (h : escapeFree s.data) : Replace s = s := by
  apply String.ext
  simp only [Replace]
  apply replaceFrom_id
  intro p hp
  exact h p.1 (List.mem_map_of_mem _ hp)

/-- C7, on a string with other backslash sequences: `\041` and a trailing `\04`
are left as they are. -/
theorem Replace_escape_free_witness : Replace "/mnt/a\\041b\\04" = "/mnt/a\\041b\\04" :=
  Replace_escape_free "/mnt/a\\041b\\04" (by decide)

/-- C8: the last two tokens are read as signed base-10 integers: for all integers
`f` and `p` in the range of int and all text tokens `a b c d`, the record line whose
fifth and sixth tokens are the decimal representations of `f` and `p` yields one
entry with `Freq = f` and `Passno = p`. -/
theorem Entries_signed_integers (open_ : String → Except Error String) (fname : String)
    (a b c d : List Char) (f p : Int)
    (ha : isToken a = true) (hb : isToken b = true) (hc : isToken c = true)
    (hd : isToken d = true) (hf : inIntRange f) (hp : inIntRange p)
    (hopen : open_ fname = .ok (String.mk (Record.line
      { fsname := a, dir := b, type_ := c, opts := d, freq := decimal f,
        passno := decimal p }))) :
    Entries open_ fname =
      ([{ Fsname := Replace (String.mk a), Dir := Replace (String.mk b),
          Type_ := Replace (String.mk c), Opts := Replace (String.mk d),
          Freq := f, Passno := p }], none) := by
  have h := Entries_linesOf open_ fname
    [{ fsname := a, dir := b, type_ := c, opts := d, freq := decimal f, passno := decimal p }]
    (by
      intro r hr
      rw [List.mem_singleton] at hr
      subst hr
      refine ⟨ha, hb, hc, hd, (decimal_token f).1, ?_, (decimal_token p).1, ?_⟩
      · rw [(decimal_token f).2]; exact hf
      · rw [(decimal_token p).2]; exact hp)
    (by simpa [linesOf] using hopen)
  rw [h]
  simp [Record.entry, (decimal_token f).2, (decimal_token p).2]

/-- C8, at the ends of the range: the least int and a positive value. -/
theorem Entries_signed_integers_witness :
    Entries (fun _ => .ok "tmpfs /run tmpfs rw -9223372036854775808 17\n") "/etc/fstab" =
      ([{ Fsname := "tmpfs", Dir := "/run", Type_ := "tmpfs", Opts := "rw",
          Freq := -9223372036854775808, Passno := 17 }], none) :=
  Entries_signed_integers (fun _ => .ok "tmpfs /run tmpfs rw -9223372036854775808 17\n")
    "/etc/fstab" "tmpfs".toList "/run".toList "tmpfs".toList "rw".toList
    (-9223372036854775808) 17 (by decide) (by decide) (by decide) (by decide) (by decide)
    (by decide) rfl

/-- C9: for an empty file `Entries` returns no entries and a nil error. -/
theorem Entries_empty_file (open_ : String → Except Error String) (fname : String)
    (hopen : open_ fname = .ok "") : Entries open_ fname = ([], none) := by
  simp only [Entries, hopen]
  rfl

/-- C9, on a file system where every file is empty. -/
theorem Entries_empty_file_witness : Entries (fun _ => .ok "") "/etc/fstab" = ([], none) :=
  Entries_empty_file (fun _ => .ok "") "/etc/fstab" rfl

/-- C10: when the file cannot be opened, `Entries` returns no entries and the error
of `os.Open` itself, and performs no scan: the number of calls of `fmt.Fscanf` it
makes is zero, whereas on every file that opens it makes at least one. -/
theorem Entries_open_error (open_ : String → Except Error String) (fname : String)
    (err : Error) (hopen : open_ fname = .error err) :
    Entries open_ fname = ([], some err) ∧
    Entries.run open_ fname = (([], some err), 0) ∧
    (∀ other content : String, open_ other = .ok content →
      (Entries.run open_ other).1 = Entries open_ other ∧
      (Entries.run open_ other).2 = (Entries open_ other).1.length + 1) := by
  refine ⟨?_, ?_, fun other content h =>
    ⟨Entries_run_fst open_ other, Entries_run_scans open_ other content h⟩⟩
  · simp only [Entries, hopen]
  · simp only [Entries.run, hopen]

/-- C10, on a file system with one empty file: no scan on the path that does not
exist, one scan on the empty file. -/
theorem Entries_open_error_witness :
    Entries.run (fun path => if path = "/etc/fstab" then .ok ""
        else .error (.PathError "open" path "no such file or directory")) "/no/such/file" =
      (([], some (.PathError "open" "/no/such/file" "no such file or directory")), 0) ∧
    (Entries.run (fun path => if path = "/etc/fstab" then .ok ""
        else .error (.PathError "open" path "no such file or directory")) "/etc/fstab").2 =
      1 :=
  ⟨(Entries_open_error _ "/no/such/file" _ rfl).2.1,
    ((Entries_open_error (fun path => if path = "/etc/fstab" then .ok ""
        else .error (.PathError "open" path "no such file or directory")) "/no/such/file" _
      rfl).2.2 "/etc/fstab" "" rfl).2⟩

/-- C3: two valid lines followed by a third record of only four tokens.  When the
file ends right after the fourth token, `Entries` returns the two entries and a nil
error; when a newline follows the fourth token it returns the two entries and the
scanner's error about the newline.  In neither case is the error
`wrong line format (invalid number of fields)`. -/
theorem Entries_truncated_record :
    Entries (fun _ => .ok "/dev/sda1 / ext4 rw 0 1\nproc /proc proc rw 0 0\ntmpfs /run tmpfs rw")
      "/etc/fstab" =
      ([{ Fsname := "/dev/sda1", Dir := "/", Type_ := "ext4", Opts := "rw", Freq := 0,
          Passno := 1 },
        { Fsname := "proc", Dir := "/proc", Type_ := "proc", Opts := "rw", Freq := 0,
          Passno := 0 }], none) ∧
    Entries
      (fun _ => .ok "/dev/sda1 / ext4 rw 0 1\nproc /proc proc rw 0 0\ntmpfs /run tmpfs rw\n")
      "/etc/fstab" =
      ([{ Fsname := "/dev/sda1", Dir := "/", Type_ := "ext4", Opts := "rw", Freq := 0,
          Passno := 1 },
        { Fsname := "proc", Dir := "/proc", Type_ := "proc", Opts := "rw", Freq := 0,
          Passno := 0 }], some (.scanError "newline in input does not match format")) := by
  constructor <;> decide


/-- C4, as stated, fails: after one valid line, a record whose sixth token is `2x`
(no base-10 integer) is read with `Passno = 2` and is among the returned entries;
the `x` is lost and the error comes from the newline that follows. -/
theorem Entries_malformed_passno_accepted :
    Entries (fun _ => .ok "/dev/sda1 / ext4 rw 0 1\nproc /proc proc rw 0 2x\n") "/etc/fstab" =
      ([{ Fsname := "/dev/sda1", Dir := "/", Type_ := "ext4", Opts := "rw", Freq := 0,
          Passno := 1 },
        { Fsname := "proc", Dir := "/proc", Type_ := "proc", Opts := "rw", Freq := 0,
          Passno := 2 }], some (.scanError "unexpected newline")) := by
  decide

/-- C4, amended: for every file made of `k` well-formed record lines followed by a
record line (and anything after it) whose fifth token is not a base-10 integer in
the range of int, or whose sixth token does not start with a base-10 integer
(an optional sign and a digit) or starts with one out of range, `Entries` returns
exactly the `k` entries of the preceding records together with the error of the
scanner itself (`expected integer`, `expected space in input to match format`, or
the range error of `strconv.ParseInt`). -/
theorem Entries_malformed_integer (open_ : String → Except Error String) (fname : String)
    (rs : List Record) (hrs : ∀ r ∈ rs, r.wellFormed) (r : Record) (rest : List Char)
    (ht1 : isToken r.fsname = true) (ht2 : isToken r.dir = true) (ht3 : isToken r.type_ = true)
    (ht4 : isToken r.opts = true) (ht5 : isToken r.freq = true) (ht6 : isToken r.passno = true)
    (hbad : ¬ isGoInt r.freq ∨
      isIntToken (leadingInt r.passno) = false ∨ ¬ inIntRange (intValue (leadingInt r.passno)))
    (hopen : open_ fname = .ok (String.mk (linesOf rs ++ (r.line ++ rest)))) :
    ∃ err, Entries open_ fname = (rs.map Record.entry, some err) ∧ isIntegerScanError err :=
  Entries_malformed_of open_ fname rs hrs r rest ht1 ht2 ht3 ht4 ht5 ht6 hbad hopen

/-- C4, amended, after one valid line: a dump frequency of `1x` (an integer
followed by a letter). -/
theorem Entries_malformed_integer_witness :
    ∃ err,
      Entries (fun _ => .ok "/dev/sda1 / ext4 rw 0 1\nproc /proc proc rw 1x 0\n") "/etc/fstab" =
        ([{ Fsname := "/dev/sda1", Dir := "/", Type_ := "ext4", Opts := "rw", Freq := 0,
            Passno := 1 }], some err) ∧
      isIntegerScanError err :=
  Entries_malformed_integer (fun _ => .ok "/dev/sda1 / ext4 rw 0 1\nproc /proc proc rw 1x 0\n")
    "/etc/fstab"
    [{ fsname := "/dev/sda1".toList, dir := "/".toList, type_ := "ext4".toList,
       opts := "rw".toList, freq := "0".toList, passno := "1".toList }]
    (by decide)
    { fsname := "proc".toList, dir := "/proc".toList, type_ := "proc".toList,
      opts := "rw".toList, freq := "1x".toList, passno := "0".toList }
    [] (by decide) (by decide) (by decide) (by decide) (by decide) (by decide)
    (Or.inl (by decide)) rfl

/-- C6, as stated, fails: a newline between the fifth and the sixth token of a
record makes the scan fail, and so does a second newline between two records. -/
theorem Entries_newline_between_fields :
    Entries (fun _ => .ok "/dev/sda1 / ext4 rw 0\n1") "/etc/fstab" =
      ([], some (.scanError "newline in input does not match format")) ∧
    Entries (fun _ => .ok "/dev/sda1 / ext4 rw 0 1\n\nproc /proc proc rw 0 0") "/etc/fstab" =
      ([{ Fsname := "/dev/sda1", Dir := "/", Type_ := "ext4", Opts := "rw", Freq := 0,
          Passno := 1 }], some (.scanError "unexpected newline")) := by
  constructor <;> decide

/-- C6, amended: the result of `Entries` does not depend on which whitespace other
than newline separates the tokens: for every sequence of well-formed records, every
choice of non-empty runs of whitespace other than newline between the tokens of a
record, and every choice, between the last token of a record and the first token of
the next, of one whitespace character (which may be a newline) followed by any run
of whitespace other than newline, `Entries` returns the entries of the records and
a nil error; no newline is required between records. -/
theorem Entries_any_blank_layout (open_ : String → Except Error String) (fname : String)
    (ps : List Placed) (hps : ∀ p ∈ ps, p.wellPlaced)
    (hopen : open_ fname = .ok (String.mk (spread ps))) :
    Entries open_ fname = (ps.map (fun p => p.record.entry), none) :=
  Entries_spread_of open_ fname ps hps hopen

/-- C6, amended, on two records: tabs and runs of spaces between the fields, a
space and no newline in one gap. -/
theorem Entries_any_blank_layout_witness :
    Entries (fun _ => .ok "/dev/sda1\t/  ext4 rw \t0 1  proc /proc\tproc rw 0 0") "/etc/fstab" =
      ([{ Fsname := "/dev/sda1", Dir := "/", Type_ := "ext4", Opts := "rw", Freq := 0,
          Passno := 1 },
        { Fsname := "proc", Dir := "/proc", Type_ := "proc", Opts := "rw", Freq := 0,
          Passno := 0 }], none) :=
  Entries_any_blank_layout
    (fun _ => .ok "/dev/sda1\t/  ext4 rw \t0 1  proc /proc\tproc rw 0 0") "/etc/fstab"
    [{ record := { fsname := "/dev/sda1".toList, dir := "/".toList, type_ := "ext4".toList,
                   opts := "rw".toList, freq := "0".toList, passno := "1".toList },
       s1 := ['\t'], s2 := [' ', ' '], s3 := [' '], s4 := [' ', '\t'], s5 := [' '],
       gap := [' ', ' '] },
     { record := { fsname := "proc".toList, dir := "/proc".toList, type_ := "proc".toList,
                   opts := "rw".toList, freq := "0".toList, passno := "0".toList },
       s1 := [' '], s2 := ['\t'], s3 := [' '], s4 := [' '], s5 := [' '],
       gap := ['\n'] }]
    (by decide) rfl

/-- C11: unescaping is single-pass and never reads its own output again: the
7-character string `\134012` becomes the 4-character string `\012`, not a newline,
and for every string `t`, unescaping `\134` followed by `t` gives a backslash
followed by the unescaped `t`, whatever that begins with. -/
theorem Replace_single_pass :
    Replace "\\134012" = "\\012" ∧ (Replace "\\134012").length = 4 ∧
    ∀ t : String, Replace ("\\134" ++ t) = "\\" ++ Replace t := by
  refine ⟨by decide, by decide, ?_⟩
  intro t
  apply String.ext
  simp only [Replace, String.data_append]
  exact replaceFrom_escape (['\\', '1', '3', '4'], ['\\']) (by simp [escaped]) t.data

/-- C12: `unescapeFields` changes exactly the four text fields, each on its own:
after it `Fsname`, `Dir`, `Type` and `Opts` are the unescaping of their own
previous values, and `Freq` and `Passno` are unchanged. -/
theorem unescapeFields_frame (m : Entry) :
    (unescapeFields m).Fsname = Replace m.Fsname ∧ (unescapeFields m).Dir = Replace m.Dir ∧
    (unescapeFields m).Type_ = Replace m.Type_ ∧ (unescapeFields m).Opts = Replace m.Opts ∧
    (unescapeFields m).Freq = m.Freq ∧ (unescapeFields m).Passno = m.Passno :=
  ⟨rfl, rfl, rfl, rfl, rfl, rfl⟩

/-- C13: the format-error branch of `Entries` cannot be reached: whenever the scan
of `%s %s %s %s %d %d` into the six operands reports a nil error it has processed
all six (`n = 6`), whatever the content, so on a file that opens `Entries` never
returns the error `wrong line format (invalid number of fields)`. -/
theorem Entries_format_error_unreachable (open_ : String → Except Error String)
    (fname content : String) (hopen : open_ fname = .ok content) :
    (∀ (f : List Char) (n : Nat) (e : Entry) (f1 : List Char),
      Fscanf f mtabFmt operands Entry.zero = (n, none, e, f1) → n = 6) ∧
    (Entries open_ fname).2 ≠ some (.Errorf "wrong line format (invalid number of fields)") := by
  refine ⟨fun f n e f1 h => (Fscanf_nil_error f n e f1 h).1, ?_⟩
  intro h
  simp only [Entries, hopen] at h
  have := READLOOP_error _ _ _ _ h
  cases this

/-- C13, on a file whose last record has only four tokens. -/
theorem Entries_format_error_unreachable_witness :
    (Entries (fun _ => .ok "/dev/sda1 / ext4 rw 0 1\ntmpfs /run tmpfs rw") "/etc/fstab").2 ≠
      some (.Errorf "wrong line format (invalid number of fields)") :=
  (Entries_format_error_unreachable
    (fun _ => .ok "/dev/sda1 / ext4 rw 0 1\ntmpfs /run tmpfs rw") "/etc/fstab"
    "/dev/sda1 / ext4 rw 0 1\ntmpfs /run tmpfs rw" rfl).2

/-- C14: `Entries` terminates on every file content.  A scan that reports a nil
error has taken at least one character of the remaining input; after a scan that
reports an error the loop returns the entries it has; so the result of the loop
is the same for every fuel above the length of the content, and the number of
returned entries is at most the length of the content. -/
theorem Entries_terminates (open_ : String → Except Error String) (fname content : String)
    (hopen : open_ fname = .ok content) :
    (∀ (f : List Char) (n : Nat) (e : Entry) (f1 : List Char),
      Fscanf f mtabFmt operands Entry.zero = (n, none, e, f1) → f1.length < f.length) ∧
    (∀ (fuel : Nat) (f : List Char) (out : List Entry) (n : Nat) (err : Error) (e : Entry)
      (f1 : List Char), Fscanf f mtabFmt operands Entry.zero = (n, some err, e, f1) →
      (READLOOP (fuel + 1) f out).1 = out) ∧
    (∀ fuel : Nat, content.data.length < fuel →
      READLOOP fuel content.data [] = Entries open_ fname) ∧
    (Entries open_ fname).1.length ≤ content.data.length := by
  refine ⟨fun f n e f1 h => (Fscanf_nil_error f n e f1 h).2,
    fun fuel f out n err e f1 h => READLOOP_stops fuel f out n err e f1 h, ?_, ?_⟩
  · intro fuel hfuel
    simp only [Entries, hopen]
    exact READLOOP_fuel _ _ _ _ hfuel (by omega)
  · simp only [Entries, hopen]
    simpa using READLOOP_length (content.data.length + 1) content.data []

/-- C14, on a file of two lines: no more entries than characters. -/
theorem Entries_terminates_witness :
    (Entries (fun _ => .ok "/dev/sda1 / ext4 rw 0 1\nproc /proc proc rw 0 0\n")
        "/etc/fstab").1.length ≤
      "/dev/sda1 / ext4 rw 0 1\nproc /proc proc rw 0 0\n".data.length :=
  (Entries_terminates (fun _ => .ok "/dev/sda1 / ext4 rw 0 1\nproc /proc proc rw 0 0\n")
    "/etc/fstab" "/dev/sda1 / ext4 rw 0 1\nproc /proc proc rw 0 0\n" rfl).2.2.2

/-- C15: every field value is representable: for every string `t`, its escaping
(each space, tab, newline and backslash written as `\040`, `\011`, `\012`, `\134`)
holds no space, tab or newline, and unescapes to `t`; so `escaped.Replace` is
surjective. -/
theorem Replace_escape :
    (∀ t : String, (∀ c ∈ (escape t).data, c ≠ ' ' ∧ c ≠ '\t' ∧ c ≠ '\n') ∧
      Replace (escape t) = t) ∧
    Function.Surjective Replace := by
  have h : ∀ t : String, Replace (escape t) = t := by
    intro t
    apply String.ext
    simp only [Replace, escape]
    exact replaceFrom_escapeRunes t.data
  exact ⟨fun t => ⟨escapeRunes_no_space t.data, h t⟩, fun t => ⟨escape t, h t⟩⟩

/-- C16: parsing is compositional over complete record lines: for every content
`p` made of well-formed record lines, each ended by a newline, and every content
`q`, the entries `Entries` returns for `p ++ q` are those it returns for `p`
followed by those it returns for `q`, and the error it returns for `p ++ q` is
the one it returns for `q`. -/
theorem Entries_compositional (open_ : String → Except Error String) (fp fq fpq : String)
    (rs : List Record) (hrs : ∀ r ∈ rs, r.wellFormed) (q : List Char)
    (hp : open_ fp = .ok (String.mk (linesOf rs))) (hq : open_ fq = .ok (String.mk q))
    (hpq : open_ fpq = .ok (String.mk (linesOf rs ++ q))) :
    (Entries open_ fpq).1 = (Entries open_ fp).1 ++ (Entries open_ fq).1 ∧
    (Entries open_ fpq).2 = (Entries open_ fq).2 := by
  rw [Entries_linesOf open_ fp rs hrs hp]
  simp only [Entries, hq, hpq]
  obtain ⟨k, hk⟩ : ∃ k, (linesOf rs ++ q).length + 1 = (k + q.length + 1) + rs.length :=
    ⟨(linesOf rs).length - rs.length, by
      have := length_linesOf rs
      simp only [List.length_append]
      omega⟩
  rw [hk, READLOOP_linesOf rs hrs (k + q.length + 1) [] q, READLOOP_out,
    READLOOP_fuel (k + q.length + 1) (q.length + 1) q [] (by omega) (by omega)]
  simp

/-- C16, on a file system with three files: one valid line, a line with a bad
pass number after a valid one, and the two together. -/
theorem Entries_compositional_witness :
    (Entries (fun path => if path = "/p" then .ok "/dev/sda1 / ext4 rw 0 1\n"
        else if path = "/q" then .ok "proc /proc proc rw 0 0\ntmpfs /run tmpfs rw 0 x\n"
        else .ok "/dev/sda1 / ext4 rw 0 1\nproc /proc proc rw 0 0\ntmpfs /run tmpfs rw 0 x\n")
        "/pq").1 =
      (Entries (fun path => if path = "/p" then .ok "/dev/sda1 / ext4 rw 0 1\n"
        else if path = "/q" then .ok "proc /proc proc rw 0 0\ntmpfs /run tmpfs rw 0 x\n"
        else .ok "/dev/sda1 / ext4 rw 0 1\nproc /proc proc rw 0 0\ntmpfs /run tmpfs rw 0 x\n")
        "/p").1 ++
      (Entries (fun path => if path = "/p" then .ok "/dev/sda1 / ext4 rw 0 1\n"
        else if path = "/q" then .ok "proc /proc proc rw 0 0\ntmpfs /run tmpfs rw 0 x\n"
        else .ok "/dev/sda1 / ext4 rw 0 1\nproc /proc proc rw 0 0\ntmpfs /run tmpfs rw 0 x\n")
        "/q").1 ∧
    (Entries (fun path => if path = "/p" then .ok "/dev/sda1 / ext4 rw 0 1\n"
        else if path = "/q" then .ok "proc /proc proc rw 0 0\ntmpfs /run tmpfs rw 0 x\n"
        else .ok "/dev/sda1 / ext4 rw 0 1\nproc /proc proc rw 0 0\ntmpfs /run tmpfs rw 0 x\n")
        "/pq").2 = some (.scanError "expected integer") :=
  ⟨(Entries_compositional _ "/p" "/q" "/pq"
      [{ fsname := "/dev/sda1".toList, dir := "/".toList, type_ := "ext4".toList,
         opts := "rw".toList, freq := "0".toList, passno := "1".toList }]
      (by decide) "proc /proc proc rw 0 0\ntmpfs /run tmpfs rw 0 x\n".toList rfl rfl rfl).1,
    by decide⟩

/-- C17: the simultaneous replacer equals sequential replacement in the order of
the table: for every string `s`, `escaped.Replace` gives what four successive
replace-all passes give, first `\040` to space, then `\011` to tab, then `\012` to
newline, and last `\134` to backslash. -/
theorem Replace_eq_sequential (s : String) : Replace s = unescapeSequential s := by
  apply String.ext
  simp only [Replace, unescapeSequential]
  exact replaceFrom_eq_sequentialRunes s.data


end Mtab
